import Mathlib

/-!
# Dominance analysis of `dominator.cpp`

A shallow embedding of the three functions of `src/dominator.cpp`
(`computeDominators`, `computeImmediateDominators`, `computeDominanceFrontier`)
and theorems about them.

Modelling conventions.

* `Node` is the C++ `int`; node ids are integers, the loops of the source run
  over the indices `0 .. cfg.size()-1`.
* `Graph` is `vector<vector<Node>>`: the list stored at index `i` is `cfg[i]`.
* A `std::set<Node>` is a strictly ascending list of integers, so that
  `==` / `!=` on sets is equality of lists and iteration is in ascending order.
* A `std::unordered_map<Node, V>` is a function `Node → Option V`; `none`
  means that the key is absent.  `operator[]` on an absent key inserts a
  default value, `at` on an absent key throws `std::out_of_range`.
* The initial set of line 23 is not determined by the source (see `allNodes`);
  `computeDominators` starts every non-entry node with the ids `0 .. n-1`, and
  `computeDominatorsFrom` takes the initial sets as a parameter.
* `while` loops take a fuel argument (the number of times the loop test may be
  evaluated); running out of fuel is reported separately from every outcome
  the C++ program can have.
-/

namespace Dominator

/-! ## Definitions

First the program (`dominator.cpp`, lines 9-102), then the notions the theorems
are stated with. -/

/-- The C++ alias `using Node = int`. -/
abbrev Node := Int

/-- The C++ alias `using Graph = vector<vector<Node>>`. -/
abbrev Graph := List (List Node)

/-- A `std::set<Node>`, kept as a strictly ascending list. -/
abbrev NodeSet := List Node

/-- An `unordered_map<Node, set<Node>>`; `none` is an absent key. -/
abbrev DomMap := Node → Option NodeSet

/-- An `unordered_map<Node, Node>`; `none` is an absent key. -/
abbrev IdomMap := Node → Option Node

/-- The element access `cfg[i]` for an index `i < cfg.size()`. -/
def Graph.at (cfg : Graph) (i : Nat) : List Node := cfg.getD i []

/-- The map with no key. -/
def emptyMap {V : Type} : Node → Option V := fun _ => none

/-- The assignment `m[k] = v`. -/
def assign {V : Type} (m : Node → Option V) (k : Node) (v : V) : Node → Option V :=
  fun j => if j = k then some v else m j

/-- The access `m[k]` on a map of sets: the value read, and the map afterwards
(an absent key is inserted with the empty set). -/
def index (m : DomMap) (k : Node) : NodeSet × DomMap :=
  match m k with
  | some s => (s, m)
  | none => ([], assign m k [])

/-- The call `set_intersection(a.begin(), a.end(), b.begin(), b.end(), inserter(r, r.begin()))`
on two sets: the elements of `a` that also occur in `b`, in ascending order. -/
def setIntersection (a b : NodeSet) : NodeSet := a.filter (fun x => b.contains x)

/-- The initial set of a non-entry node in `computeDominators`.  The source
writes `set<Node>(cfg.begin(), cfg.end())` in line 23, whose iterators run over
the rows of `cfg`, which are not `Node`s, so the source does not determine this
set.  `computeDominators` below takes the set that the comment of that line
("Initially, all nodes dominate") and the specification (`AllNodes`) name, the
ids `0 .. n-1`; `computeDominatorsFrom` takes the initial sets as a parameter,
and what depends on them is stated about `computeDominatorsFrom`. -/
def allNodes (n : Nat) : NodeSet := (List.range n).map Int.ofNat

/-- One turn of the initialisation loop of `computeDominators` (lines 19-25). -/
def initStep (n : Nat) (entry : Node) (dom : DomMap) (i : Nat) : DomMap :=
  if (i : Int) = entry then assign dom i [(i : Int)] else assign dom i (allNodes n)

/-- The initialisation loop of `computeDominators` (lines 19-25). -/
def initDom (n : Nat) (entry : Node) : DomMap :=
  (List.range n).foldl (initStep n entry) emptyMap

/-- The loop `for (Node pred : cfg[node])` of lines 36-42: `newDom` is
intersected with `dom[pred]` for every predecessor in turn. -/
def intersectPreds : List Node → NodeSet → DomMap → NodeSet × DomMap
  | [], newDom, dom => (newDom, dom)
  | pred :: rest, newDom, dom =>
    intersectPreds rest (setIntersection (index dom pred).1 newDom) (index dom pred).2

/-- The body of the loop `for (Node node = 0; node < n; ++node)` of lines
31-49, on the pair of the map and the flag `changed`. -/
def visitNode (cfg : Graph) (entry : Node) (st : DomMap × Bool) (i : Nat) : DomMap × Bool :=
  if (i : Int) = entry then st
  else
    let r := intersectPreds (cfg.at i) [(i : Int)] st.1
    let cur := index r.2 i
    if r.1 ≠ cur.1 then (assign cur.2 i r.1, true) else (cur.2, st.2)

/-- One pass over the nodes listed in `order`, starting with `changed = false`. -/
def passOver (cfg : Graph) (entry : Node) (order : List Nat) (dom : DomMap) : DomMap × Bool :=
  order.foldl (visitNode cfg entry) (dom, false)

/-- One full pass of the `while` body (lines 30-49): every node in ascending order. -/
def pass (cfg : Graph) (entry : Node) (dom : DomMap) : DomMap × Bool :=
  passOver cfg entry (List.range cfg.length) dom

/-- The loop `while (changed)` of lines 28-50; `fuel` bounds the number of
passes, `none` is "fuel exhausted". -/
def iterate (cfg : Graph) (entry : Node) : Nat → DomMap → Option DomMap
  | 0, _ => none
  | fuel + 1, dom =>
    if (pass cfg entry dom).2 then iterate cfg entry fuel (pass cfg entry dom).1
    else some (pass cfg entry dom).1

/-- The function `computeDominators` (lines 14-53), allowed at most `fuel` passes. -/
def computeDominators (fuel : Nat) (cfg : Graph) (entry : Node) : Option DomMap :=
  iterate cfg entry fuel (initDom cfg.length entry)

/-- The value read by `dom[k]` inside `computeImmediateDominators`.  There
`dom` is a local copy that is never returned, so the key that `operator[]`
inserts for an absent `k` is not observable: only the value read matters. -/
def lookupSet (dom : DomMap) (k : Node) : NodeSet := (dom k).getD []

/-- The loop `for (Node other : dominators)` of lines 69-75: `true` when no
`other != d` has `d` in `dom[other]`. -/
def isClosest (dom : DomMap) (dominators : NodeSet) (d : Node) : Bool :=
  dominators.all (fun other => !(other != d && (lookupSet dom other).contains d))

/-- The loop `for (Node d : dominators)` of lines 67-80: the first closest
candidate in ascending order, or `-1`. -/
def selectIdom (dom : DomMap) (dominators : NodeSet) : Node :=
  match dominators.find? (isClosest dom dominators) with
  | some d => d
  | none => -1

/-- The body of the loop of `computeImmediateDominators` (lines 60-82). -/
def idomStep (dom : DomMap) (entry : Node) (idom : IdomMap) (i : Nat) : IdomMap :=
  if (i : Int) = entry then idom
  else assign idom i (selectIdom dom ((lookupSet dom i).erase (i : Int)))

/-- The loop of `computeImmediateDominators` (lines 58-84) on a given
dominator map, for a graph of `n` nodes. -/
def extractIdom (n : Nat) (entry : Node) (dom : DomMap) : IdomMap :=
  (List.range n).foldl (idomStep dom entry) emptyMap

/-- The function `computeImmediateDominators` (lines 56-85); `fuel` is handed
to `computeDominators`. -/
def computeImmediateDominators (fuel : Nat) (cfg : Graph) (entry : Node) : Option IdomMap :=
  (computeDominators fuel cfg entry).map (extractIdom cfg.length entry)

/-- The ways in which a run of `computeDominanceFrontier` can end: it returns
a value, `idom.at` throws `std::out_of_range`, or the model runs out of fuel. -/
inductive Outcome (α : Type) where
  | ok (a : α)
  | outOfRange
  | timeout

/-- The call `s.insert(x)` on a set. -/
def setInsert (x : Node) : NodeSet → NodeSet
  | [] => [x]
  | y :: ys => if x < y then x :: y :: ys else if x = y then y :: ys else y :: setInsert x ys

/-- The loop `while (runner != idom.at(node))` of lines 95-98; `fuel` bounds
the number of evaluations of the loop test. -/
def walk (idom : IdomMap) (node : Node) : Nat → Node → DomMap → Outcome DomMap
  | 0, _, _ => Outcome.timeout
  | fuel + 1, runner, df =>
    match idom node with
    | none => Outcome.outOfRange
    | some stop =>
      if runner ≠ stop then
        match idom runner with
        | none => Outcome.outOfRange
        | some next =>
          walk idom node fuel next
            (assign (index df runner).2 runner (setInsert node (index df runner).1))
      else Outcome.ok df

/-- The loop `for (Node succ : cfg[node])` of lines 93-99. -/
def walkPreds (fuel : Nat) (idom : IdomMap) (node : Node) : List Node → DomMap → Outcome DomMap
  | [], df => Outcome.ok df
  | succ :: rest, df =>
    match walk idom node fuel succ df with
    | Outcome.ok df1 => walkPreds fuel idom node rest df1
    | Outcome.outOfRange => Outcome.outOfRange
    | Outcome.timeout => Outcome.timeout

/-- The loop `for (Node node = 0; node < cfg.size(); ++node)` of lines 90-100,
over the remaining node indices. -/
def frontierLoop (fuel : Nat) (cfg : Graph) (idom : IdomMap) : List Nat → DomMap → Outcome DomMap
  | [], df => Outcome.ok df
  | i :: rest, df =>
    if (cfg.at i).length < 2 then frontierLoop fuel cfg idom rest df
    else
      match walkPreds fuel idom (i : Int) (cfg.at i) df with
      | Outcome.ok df1 => frontierLoop fuel cfg idom rest df1
      | Outcome.outOfRange => Outcome.outOfRange
      | Outcome.timeout => Outcome.timeout

/-- The function `computeDominanceFrontier` (lines 88-102); every walk may
evaluate its loop test at most `fuel` times. -/
def computeDominanceFrontier (fuel : Nat) (cfg : Graph) (idom : IdomMap) : Outcome DomMap :=
  frontierLoop fuel cfg idom (List.range cfg.length) emptyMap

/-- The pipeline of `main`: `computeImmediateDominators`, then
`computeDominanceFrontier` on its result. -/
def frontierOf (fuel : Nat) (cfg : Graph) (entry : Node) : Option (Outcome DomMap) :=
  (computeImmediateDominators fuel cfg entry).map (computeDominanceFrontier fuel cfg)

/-- The diamond graph of the specification. -/
def diamond : Graph := [[], [0], [1], [1], [2, 3]]

/-- The diamond graph with an extra node 5 that has no predecessor. -/
def diamond5 : Graph := [[], [0], [1], [1], [2, 3], []]

/-! ### Notions used in the theorems -/

/-- The set `{node} ∩ ⋂ V(pred)` that lines 35-42 compute from the values `V`
of the map: `[i]` when every predecessor's set contains `i`, else empty. -/
def newDomOf (V : Node → NodeSet) (i : Node) (preds : List Node) : NodeSet :=
  if preds.all (fun p => (V p).contains i) then [i] else []

/-- The loop body of lines 31-49 on the values of the map alone. -/
def valVisit (cfg : Graph) (entry : Node) (st : (Node → NodeSet) × Bool) (i : Nat) :
    (Node → NodeSet) × Bool :=
  if (i : Int) = entry then st
  else (Function.update st.1 (i : Int) (newDomOf st.1 i (cfg.at i)),
        st.2 || decide (newDomOf st.1 i (cfg.at i) ≠ st.1 i))

/-- Every set stored in the map is strictly ascending (the representation
invariant of `std::set`). -/
def Canon (dom : DomMap) : Prop := ∀ k s, dom k = some s → s.Pairwise (· < ·)

/-- Every predecessor listed for node `i` is `i` itself (in particular: `i`
has no predecessor). -/
def SelfOnly (cfg : Graph) (i : Nat) : Prop := ∀ p ∈ cfg.at i, p = (i : Int)

/-- Every value is empty or the singleton of its own key. -/
def Small (V : Node → NodeSet) : Prop := ∀ k, V k = [] ∨ V k = [k]

/-- The values reached while the second pass runs: all values are small, the
non-entry nodes with `SelfOnly` hold their singleton, and the non-entry nodes
in `P` without `SelfOnly` hold the empty set. -/
def Stage (cfg : Graph) (entry : Node) (P : Nat → Prop) (V : Node → NodeSet) : Prop :=
  Small V ∧
  (∀ i : Nat, i < cfg.length → (i : Int) ≠ entry → SelfOnly cfg i → V i = [(i : Int)]) ∧
  (∀ i : Nat, P i → (i : Int) ≠ entry → ¬ SelfOnly cfg i → V i = [])

/-- The map `r` is what a pass that reported no change left behind. -/
def LastPass (cfg : Graph) (entry : Node) (r : DomMap) : Prop :=
  ∃ d, Canon d ∧ pass cfg entry d = (r, false)

/-- The closed form the loop ends in: a canonical map whose values are in the
last stage. -/
def Final (cfg : Graph) (entry : Node) (r : DomMap) : Prop :=
  Canon r ∧ Stage cfg entry (fun k => k < cfg.length) (lookupSet r)

/-- The key `j` is written or read by the visit of some non-entry node of `order`. -/
def Touched (cfg : Graph) (entry : Node) (order : List Nat) (j : Node) : Prop :=
  ∃ i ∈ order, (i : Int) ≠ entry ∧ (j = (i : Int) ∨ j ∈ cfg.at i)

/-- Every member of every stored set satisfies `P`. -/
def MembersSatisfy (P : Node → Prop) (df : DomMap) : Prop :=
  ∀ k s, df k = some s → ∀ x ∈ s, P x

/-! ### Graphs, paths and dominance -/

/-- The structural validity of the specification: the entry is a node, every
predecessor id is a node, and the entry has no predecessor. -/
def ValidGraph (cfg : Graph) (entry : Node) : Prop :=
  0 ≤ entry ∧ entry < (cfg.length : Int) ∧
  (∀ preds ∈ cfg, ∀ p ∈ preds, 0 ≤ p ∧ p < (cfg.length : Int)) ∧
  cfg.at entry.toNat = []

instance (cfg : Graph) (entry : Node) : Decidable (ValidGraph cfg entry) := by
  unfold ValidGraph
  infer_instance

/-- The edge `p -> n` of the graph: `p` is listed among the predecessors of `n`. -/
def Edge (cfg : Graph) (p n : Node) : Prop := 0 ≤ n ∧ p ∈ cfg.at n.toNat

/-- The list `path` is a path from `a` to `b` along the edges of the graph. -/
def IsPath (cfg : Graph) (b : Node) : Node → List Node → Prop
  | _, [] => False
  | a, [v] => a = v ∧ b = v
  | a, v :: w :: rest => a = v ∧ Edge cfg v w ∧ IsPath cfg b w (w :: rest)

/-- The node `n` is reachable from `entry`. -/
def Reachable (cfg : Graph) (entry n : Node) : Prop := ∃ path, IsPath cfg n entry path

/-- The node `d` dominates `n`: every path from `entry` to `n` passes through `d`. -/
def Dominates (cfg : Graph) (entry d n : Node) : Prop :=
  ∀ path, IsPath cfg n entry path → d ∈ path

/-- The node `x` is a member of `S = dom(i) \ {i}`, the candidates of the
selection step for node `i`. -/
def StrictDom (dom : DomMap) (i : Node) (x : Node) : Prop := x ∈ lookupSet dom i ∧ x ≠ i

/-- The candidate `d` satisfies the closest-condition for node `i`: no other
member `d'` of `S` has `d` in `dom(d')`. -/
def ClosestFor (dom : DomMap) (i : Node) (d : Node) : Prop :=
  ∀ d', StrictDom dom i d' → d' ≠ d → d ∉ lookupSet dom d'

/-- A sample dominator map: the dominator sets of the nodes 0, 1 and 4 of the
diamond graph. -/
def sampleDom : DomMap := assign (assign (assign emptyMap 0 [0]) 1 [0, 1]) 4 [0, 1, 4]

/-- The sequence `p, idom(p), idom(idom(p)), ...`: its element number `k`, or
`none` when a lookup on the way fails. -/
def chainAt (idom : IdomMap) : Nat → Node → Option Node
  | 0, p => some p
  | k + 1, p =>
    match idom p with
    | none => none
    | some q => chainAt idom k q

/-- The node `r` occurs in the sequence `p, idom(p), ...` strictly before the
first occurrence of `idom(node)`. -/
def OnWalk (idom : IdomMap) (node p r : Node) : Prop :=
  ∃ stop, idom node = some stop ∧
    ∃ k, chainAt idom k p = some r ∧ ∀ j, j ≤ k → chainAt idom j p ≠ some stop

/-- The immediate-dominator map that holds `-1` for every non-entry node of a
graph of `n` nodes and has no other key. -/
def noneIdom (n : Nat) (entry : Node) : IdomMap :=
  fun k => if 0 ≤ k ∧ k < (n : Int) ∧ k ≠ entry then some (-1) else none

/-- A three-node graph whose merge node 2 has the entry 0 among its predecessors. -/
def mergeAtEntry : Graph := [[], [0], [0, 1]]

/-- The relation `node -> idom(node)` has no cycle: no node comes back to
itself after one or more lookups. -/
def Acyclic (idom : IdomMap) : Prop := ∀ k j, 0 < j → chainAt idom j k ≠ some k

/-- A three-node graph whose node 2 merges the nodes 0 and 1. -/
def twoRoots : Graph := [[], [], [0, 1]]

/-- An acyclic map with keys outside the three-node graph: the chain from 0
runs through 5, 6 and 7 before it reaches 9. -/
def longIdom : IdomMap := fun k =>
  if k = 0 then some 5 else if k = 5 then some 6 else if k = 6 then some 7
  else if k = 7 then some 9 else if k = 1 then some 9 else if k = 2 then some 9 else none

/-- The loop `while (changed)` of `computeDominators` when every pass visits
the nodes in the order `order` instead of ascending order; `fuel` bounds the
number of passes. -/
def iterateInOrder (cfg : Graph) (entry : Node) (order : List Nat) : Nat → DomMap → Option DomMap
  | 0, _ => none
  | fuel + 1, dom =>
    if (passOver cfg entry order dom).2
    then iterateInOrder cfg entry order fuel (passOver cfg entry order dom).1
    else some (passOver cfg entry order dom).1

/-- The solver of `computeDominators` with the passes visiting the nodes in
the order `order` (the permuted iteration order of the specification): the
same initialisation, then `iterateInOrder`. -/
def computeDominatorsInOrder (order : List Nat) (fuel : Nat) (cfg : Graph) (entry : Node) :
    Option DomMap :=
  iterateInOrder cfg entry order fuel (initDom cfg.length entry)

/-- The values while the first pass runs in some order, `done` being the nodes
visited so far: keys not visited and the entry hold their initial value, the
visited non-entry nodes hold a small set, their singleton when all their
predecessors are themselves. -/
def FirstPassInv (cfg : Graph) (entry : Node) (done : List Nat) (V : Node → NodeSet) : Prop :=
  (∀ j : Int, ((∀ k ∈ done, (k : Int) ≠ j) ∨ j = entry) →
    V j = lookupSet (initDom cfg.length entry) j) ∧
  (∀ k ∈ done, (k : Int) ≠ entry →
    (V (k : Int) = [] ∨ V (k : Int) = [(k : Int)]) ∧ (SelfOnly cfg k → V (k : Int) = [(k : Int)]))

/-- The map `r` is the converged map of the graph, described without reference
to an iteration order: its values are in closed form on the non-entry nodes,
an entry inside the graph holds `{entry}`, ids outside the graph hold the
empty set, and its keys are the nodes of the graph and the keys the visits of
the non-entry nodes touch. -/
def Converged (cfg : Graph) (entry : Node) (r : DomMap) : Prop :=
  Final cfg entry r ∧
  (∀ j : Int, (j = entry ∨ ¬ (0 ≤ j ∧ j < (cfg.length : Int))) →
    lookupSet r j = lookupSet (initDom cfg.length entry) j) ∧
  (∀ j : Int, (r j).isSome ↔
    ((0 ≤ j ∧ j < (cfg.length : Int)) ∨ Touched cfg entry (List.range cfg.length) j))

/-- The facts every map of a run in the order `order` satisfies: the entry and
the ids outside the graph hold their initial value, every node of the graph is
a key, and every key is a node of the graph or touched by a visit. -/
def RunInv (cfg : Graph) (entry : Node) (order : List Nat) (d : DomMap) : Prop :=
  (∀ j : Int, (j = entry ∨ ¬ (0 ≤ j ∧ j < (cfg.length : Int))) →
    lookupSet d j = lookupSet (initDom cfg.length entry) j) ∧
  (∀ j : Int, (0 ≤ j ∧ j < (cfg.length : Int)) → (d j).isSome) ∧
  (∀ j : Int, (d j).isSome →
    ((0 ≤ j ∧ j < (cfg.length : Int)) ∨ Touched cfg entry order j))

/-- One turn of the initialisation loop (lines 19-25) with the set assigned
in line 23 taken as a parameter: `init i` is the set a non-entry node `i`
starts with. -/
def initStepFrom (init : Nat → NodeSet) (entry : Node) (dom : DomMap) (i : Nat) : DomMap :=
  if (i : Int) = entry then assign dom i [(i : Int)] else assign dom i (init i)

/-- The initialisation loop (lines 19-25) for arbitrary initial sets `init`. -/
def initDomFrom (init : Nat → NodeSet) (n : Nat) (entry : Node) : DomMap :=
  (List.range n).foldl (initStepFrom init entry) emptyMap

/-- The function `computeDominators` (lines 14-53) for arbitrary initial sets
`init` in line 23: the same loop `iterate`, started from `initDomFrom init`.
With `init i = allNodes n` for every `i` it is `computeDominators`. -/
def computeDominatorsFrom (init : Nat → NodeSet) (fuel : Nat) (cfg : Graph) (entry : Node) :
    Option DomMap :=
  iterate cfg entry fuel (initDomFrom init cfg.length entry)

theorem assign_apply {V : Type} (m : Node → Option V) (k : Node) (v : V) (j : Node) :
    assign m k v j = if j = k then some v else m j := rfl

theorem index_fst (m : DomMap) (k : Node) : (index m k).1 = lookupSet m k := by
  unfold index lookupSet
  cases h : m k <;> simp

theorem index_snd_apply (m : DomMap) (k j : Node) :
    (index m k).2 j = if j = k then some (lookupSet m k) else m j := by
  unfold index lookupSet
  cases h : m k with
  | none => simp [assign]
  | some s =>
    by_cases hj : j = k
    · subst hj; simp [h]
    · simp [hj]

theorem lookupSet_index (m : DomMap) (k j : Node) :
    lookupSet (index m k).2 j = lookupSet m j := by
  unfold lookupSet
  rw [index_snd_apply]
  by_cases hj : j = k
  · subst hj; simp [lookupSet]
  · simp [hj]

theorem canon_lookupSet {m : DomMap} (h : Canon m) (k : Node) :
    (lookupSet m k).Pairwise (· < ·) := by
  unfold lookupSet
  cases hk : m k with
  | none => simp
  | some s => simpa using h k s hk

theorem canon_assign {m : DomMap} (h : Canon m) (k : Node) {s : NodeSet}
    (hs : s.Pairwise (· < ·)) : Canon (assign m k s) := by
  intro j t hj
  rw [assign_apply] at hj
  by_cases hjk : j = k
  · simp [hjk] at hj; subst hj; exact hs
  · simp [hjk] at hj; exact h j t hj

theorem canon_index {m : DomMap} (h : Canon m) (k : Node) : Canon (index m k).2 := by
  intro j t hj
  rw [index_snd_apply] at hj
  by_cases hjk : j = k
  · simp [hjk] at hj; subst hj; exact canon_lookupSet h k
  · simp [hjk] at hj; exact h j t hj

theorem setIntersection_nil (a : NodeSet) : setIntersection a [] = [] := by
  simp [setIntersection]

theorem setIntersection_pairwise {a : NodeSet} (b : NodeSet) (h : a.Pairwise (· < ·)) :
    (setIntersection a b).Pairwise (· < ·) :=
  List.Pairwise.filter _ h

theorem setIntersection_singleton {a : NodeSet} (h : a.Pairwise (· < ·)) (i : Node) :
    setIntersection a [i] = if a.contains i then [i] else [] := by
  induction a with
  | nil => simp [setIntersection]
  | cons x xs ih =>
    rw [List.pairwise_cons] at h
    have ih1 := ih h.2
    unfold setIntersection at ih1 ⊢
    by_cases hx : x = i
    · subst hx
      have hnot : ¬ x ∈ xs := fun hm => lt_irrefl x (h.1 x hm)
      have hcx : xs.contains x = false := by simpa using hnot
      rw [hcx] at ih1
      simp [List.filter_cons, ih1]
      intro a ha e
      exact hnot (e ▸ ha)
    · have hx2 : ¬ i = x := fun e => hx e.symm
      simp [List.filter_cons, hx, hx2]
      simpa using ih1

theorem intersectPreds_fst_nil (preds : List Node) (dom : DomMap) :
    (intersectPreds preds [] dom).1 = [] := by
  induction preds generalizing dom with
  | nil => rfl
  | cons p rest ih =>
    simp only [intersectPreds, setIntersection_nil]
    exact ih _

theorem intersectPreds_fst {dom : DomMap} (h : Canon dom) (i : Node) (preds : List Node) :
    (intersectPreds preds [i] dom).1 = newDomOf (lookupSet dom) i preds := by
  induction preds generalizing dom with
  | nil => simp [intersectPreds, newDomOf]
  | cons p rest ih =>
    simp only [intersectPreds]
    rw [index_fst, setIntersection_singleton (canon_lookupSet h p)]
    by_cases hc : (lookupSet dom p).contains i
    · rw [if_pos hc, ih (canon_index h p)]
      have hv : lookupSet (index dom p).2 = lookupSet dom := funext (lookupSet_index dom p)
      rw [hv]
      have hm : i ∈ lookupSet dom p := by simpa using hc
      simp [newDomOf, hm]
    · rw [if_neg hc, intersectPreds_fst_nil]
      have hm : ¬ i ∈ lookupSet dom p := by simpa using hc
      simp [newDomOf, hm]

theorem intersectPreds_snd_apply (preds : List Node) (nd : NodeSet) (dom : DomMap) (j : Node) :
    (intersectPreds preds nd dom).2 j = if j ∈ preds then some (lookupSet dom j) else dom j := by
  induction preds generalizing nd dom with
  | nil => simp [intersectPreds]
  | cons p rest ih =>
    simp only [intersectPreds]
    rw [ih, lookupSet_index, index_snd_apply]
    by_cases hjr : j ∈ rest
    · simp [hjr]
    · by_cases hjp : j = p <;> simp [hjr, hjp]

theorem lookupSet_intersectPreds (preds : List Node) (nd : NodeSet) (dom : DomMap) (j : Node) :
    lookupSet (intersectPreds preds nd dom).2 j = lookupSet dom j := by
  unfold lookupSet
  rw [intersectPreds_snd_apply]
  by_cases hj : j ∈ preds <;> simp [hj, lookupSet]

theorem canon_intersectPreds {dom : DomMap} (h : Canon dom) (preds : List Node) (nd : NodeSet) :
    Canon (intersectPreds preds nd dom).2 := by
  intro j t hj
  rw [intersectPreds_snd_apply] at hj
  by_cases hjp : j ∈ preds
  · simp [hjp] at hj; subst hj; exact canon_lookupSet h j
  · simp [hjp] at hj; exact h j t hj

theorem newDomOf_cases (V : Node → NodeSet) (i : Node) (preds : List Node) :
    newDomOf V i preds = [] ∨ newDomOf V i preds = [i] := by
  unfold newDomOf
  split
  · exact Or.inr rfl
  · exact Or.inl rfl

theorem newDomOf_pairwise (V : Node → NodeSet) (i : Node) (preds : List Node) :
    (newDomOf V i preds).Pairwise (· < ·) := by
  rcases newDomOf_cases V i preds with h | h <;> simp [h]

theorem visitNode_entry (cfg : Graph) {entry : Node} (st : DomMap × Bool) {i : Nat}
    (hi : (i : Int) = entry) : visitNode cfg entry st i = st := by
  simp [visitNode, hi]

theorem visitNode_fst_apply (cfg : Graph) {entry : Node} {st : DomMap × Bool} {i : Nat}
    (h : Canon st.1) (hi : (i : Int) ≠ entry) (j : Node) :
    (visitNode cfg entry st i).1 j =
      if j = (i : Int) then some (newDomOf (lookupSet st.1) i (cfg.at i))
      else if j ∈ cfg.at i then some (lookupSet st.1 j) else st.1 j := by
  unfold visitNode
  rw [if_neg hi]
  dsimp only
  rw [index_fst, intersectPreds_fst h, lookupSet_intersectPreds]
  by_cases hne : newDomOf (lookupSet st.1) i (cfg.at i) = lookupSet st.1 i
  · rw [if_neg (not_not.mpr hne)]
    dsimp only
    rw [index_snd_apply, lookupSet_intersectPreds, intersectPreds_snd_apply]
    by_cases hj : j = (i : Int)
    · simp [hj, hne]
    · simp [hj]
  · rw [if_pos hne]
    dsimp only
    rw [assign_apply, index_snd_apply, lookupSet_intersectPreds, intersectPreds_snd_apply]
    by_cases hj : j = (i : Int)
    · simp [hj]
    · simp [hj]

theorem visitNode_snd (cfg : Graph) {entry : Node} {st : DomMap × Bool} {i : Nat}
    (h : Canon st.1) (hi : (i : Int) ≠ entry) :
    (visitNode cfg entry st i).2 =
      (st.2 || decide (newDomOf (lookupSet st.1) i (cfg.at i) ≠ lookupSet st.1 i)) := by
  unfold visitNode
  rw [if_neg hi]
  dsimp only
  rw [index_fst, intersectPreds_fst h, lookupSet_intersectPreds]
  by_cases hne : newDomOf (lookupSet st.1) i (cfg.at i) = lookupSet st.1 i
  · rw [if_neg (not_not.mpr hne)]
    simp [hne]
  · rw [if_pos hne]
    simp [hne]

theorem canon_visitNode (cfg : Graph) (entry : Node) {st : DomMap × Bool} (i : Nat)
    (h : Canon st.1) : Canon (visitNode cfg entry st i).1 := by
  by_cases hi : (i : Int) = entry
  · rw [visitNode_entry cfg st hi]; exact h
  · intro j t hj
    rw [visitNode_fst_apply cfg h hi] at hj
    by_cases hji : j = (i : Int)
    · simp [hji] at hj; subst hj; exact newDomOf_pairwise _ _ _
    · by_cases hjp : j ∈ cfg.at i
      · simp [hji, hjp] at hj; subst hj; exact canon_lookupSet h j
      · simp [hji, hjp] at hj; exact h j t hj

theorem visitNode_vals (cfg : Graph) (entry : Node) {st : DomMap × Bool} (i : Nat)
    (h : Canon st.1) :
    (lookupSet (visitNode cfg entry st i).1, (visitNode cfg entry st i).2) =
      valVisit cfg entry (lookupSet st.1, st.2) i := by
  by_cases hi : (i : Int) = entry
  · rw [visitNode_entry cfg st hi]; simp [valVisit, hi]
  · unfold valVisit
    rw [if_neg hi, visitNode_snd cfg h hi]
    refine Prod.ext ?_ rfl
    funext j
    show ((visitNode cfg entry st i).1 j).getD [] =
      Function.update (lookupSet st.1) (i : Int) (newDomOf (lookupSet st.1) i (cfg.at i)) j
    rw [visitNode_fst_apply cfg h hi]
    by_cases hj : j = (i : Int)
    · subst hj; simp
    · by_cases hp : j ∈ cfg.at i
      · simp [hj, hp, Function.update]
      · simp [hj, hp, Function.update]; rfl

theorem foldl_visitNode_canon (cfg : Graph) (entry : Node) (order : List Nat)
    (st : DomMap × Bool) (h : Canon st.1) :
    Canon (order.foldl (visitNode cfg entry) st).1 := by
  induction order generalizing st with
  | nil => exact h
  | cons i rest ih => exact ih _ (canon_visitNode cfg entry i h)

theorem foldl_visitNode_vals (cfg : Graph) (entry : Node) (order : List Nat)
    (st : DomMap × Bool) (h : Canon st.1) :
    (lookupSet (order.foldl (visitNode cfg entry) st).1,
      (order.foldl (visitNode cfg entry) st).2) =
      order.foldl (valVisit cfg entry) (lookupSet st.1, st.2) := by
  induction order generalizing st with
  | nil => rfl
  | cons i rest ih =>
    rw [List.foldl_cons, List.foldl_cons, ih _ (canon_visitNode cfg entry i h),
      visitNode_vals cfg entry i h]

/-- A pass whose flag ends `false` started with the flag `false` and left every value as it was. -/
theorem foldl_valVisit_false (cfg : Graph) (entry : Node) (order : List Nat)
    (V : Node → NodeSet) (b : Bool)
    (h : (order.foldl (valVisit cfg entry) (V, b)).2 = false) :
    b = false ∧ (order.foldl (valVisit cfg entry) (V, b)).1 = V := by
  induction order generalizing V b with
  | nil => exact ⟨h, rfl⟩
  | cons i rest ih =>
    rw [List.foldl_cons] at h ⊢
    by_cases hi : (i : Int) = entry
    · have hv : valVisit cfg entry (V, b) i = (V, b) := by simp [valVisit, hi]
      rw [hv] at h ⊢
      exact ih V b h
    · have hv : valVisit cfg entry (V, b) i =
          (Function.update V (i : Int) (newDomOf V i (cfg.at i)),
            b || decide (newDomOf V i (cfg.at i) ≠ V i)) := by
        simp [valVisit, hi]
      rw [hv] at h ⊢
      obtain ⟨h1, h2⟩ := ih _ _ h
      have hb : b = false := by
        cases b
        · rfl
        · simp at h1
      have hn : newDomOf V i (cfg.at i) = V i := by
        subst hb
        simpa using h1
      refine ⟨hb, ?_⟩
      rw [h2, hn]
      exact Function.update_eq_self _ V

theorem newDomOf_selfOnly {cfg : Graph} {i : Nat} (V : Node → NodeSet)
    (hs : SelfOnly cfg i) (hi : (i : Int) ∈ V i) : newDomOf V i (cfg.at i) = [(i : Int)] := by
  unfold newDomOf
  rw [if_pos]
  rw [List.all_eq_true]
  intro p hp
  rw [hs p hp]
  simpa using hi

theorem newDomOf_not_selfOnly {cfg : Graph} {i : Nat} {V : Node → NodeSet}
    (hV : Small V) (hs : ¬ SelfOnly cfg i) : newDomOf V i (cfg.at i) = [] := by
  unfold newDomOf
  rw [if_neg]
  intro hall
  rw [List.all_eq_true] at hall
  apply hs
  intro p hp
  have hc : (i : Int) ∈ V p := by simpa using hall p hp
  rcases hV p with h0 | h1
  · rw [h0] at hc; simp at hc
  · rw [h1] at hc; simp at hc; exact hc.symm

theorem valVisit_of_ne (cfg : Graph) {entry : Node} (V : Node → NodeSet) (b : Bool) {i : Nat}
    (hi : (i : Int) ≠ entry) :
    valVisit cfg entry (V, b) i =
      (Function.update V (i : Int) (newDomOf V i (cfg.at i)),
        b || decide (newDomOf V i (cfg.at i) ≠ V i)) := by
  simp [valVisit, hi]

theorem valVisit_of_eq (cfg : Graph) {entry : Node} (st : (Node → NodeSet) × Bool) {i : Nat}
    (hi : (i : Int) = entry) : valVisit cfg entry st i = st := by
  simp [valVisit, hi]

theorem stage_mono {cfg : Graph} {entry : Node} {P Q : Nat → Prop} {V : Node → NodeSet}
    (h : Stage cfg entry P V) (hPQ : ∀ k, Q k → P k) : Stage cfg entry Q V :=
  ⟨h.1, h.2.1, fun i hq => h.2.2 i (hPQ i hq)⟩

theorem stage_visit {cfg : Graph} {entry : Node} {P : Nat → Prop} {V : Node → NodeSet}
    (b : Bool) (i : Nat) (h : Stage cfg entry P V) (hlt : i < cfg.length) :
    Stage cfg entry (fun k => k = i ∨ P k) (valVisit cfg entry (V, b) i).1 := by
  by_cases hi : (i : Int) = entry
  · rw [valVisit_of_eq cfg _ hi]
    refine ⟨h.1, h.2.1, ?_⟩
    intro k hk hke hks
    rcases hk with hk | hk
    · subst hk; exact absurd hi hke
    · exact h.2.2 k hk hke hks
  · rw [valVisit_of_ne cfg V b hi]
    show Stage cfg entry _ (Function.update V (i : Int) (newDomOf V i (cfg.at i)))
    refine ⟨?_, ?_, ?_⟩
    · intro k
      by_cases hk : k = (i : Int)
      · subst hk
        rw [Function.update_same]
        exact newDomOf_cases _ _ _
      · rw [Function.update_noteq hk]
        exact h.1 k
    · intro k hkl hke hks
      show Function.update V (i : Int) _ (k : Int) = _
      by_cases hk : k = i
      · subst hk
        rw [Function.update_same]
        apply newDomOf_selfOnly V hks
        rw [h.2.1 k hkl hke hks]
        simp
      · have hk2 : (k : Int) ≠ (i : Int) := by exact_mod_cast hk
        rw [Function.update_noteq hk2]
        exact h.2.1 k hkl hke hks
    · intro k hk hke hks
      show Function.update V (i : Int) _ (k : Int) = _
      by_cases hki : k = i
      · subst hki
        rw [Function.update_same]
        exact newDomOf_not_selfOnly h.1 hks
      · have hk2 : (k : Int) ≠ (i : Int) := by exact_mod_cast hki
        rw [Function.update_noteq hk2]
        rcases hk with hk | hk
        · exact absurd hk hki
        · exact h.2.2 k hk hke hks

theorem stage_fold {cfg : Graph} {entry : Node} (order : List Nat)
    (hord : ∀ i ∈ order, i < cfg.length) {P : Nat → Prop} {V : Node → NodeSet} (b : Bool)
    (h : Stage cfg entry P V) :
    Stage cfg entry (fun k => k ∈ order ∨ P k) (order.foldl (valVisit cfg entry) (V, b)).1 := by
  induction order generalizing P V b with
  | nil => exact stage_mono h (fun k hk => by simpa using hk)
  | cons i rest ih =>
    rw [List.foldl_cons]
    have h1 := stage_visit b i h (hord i (List.mem_cons_self _ _))
    have h2 := ih (fun k hk => hord k (List.mem_cons_of_mem _ hk))
      (valVisit cfg entry (V, b) i).2 h1
    refine stage_mono h2 ?_
    intro k hk
    rcases hk with hk | hk
    · rcases List.mem_cons.mp hk with e | e
      · exact Or.inr (Or.inl e)
      · exact Or.inl e
    · exact Or.inr (Or.inr hk)

theorem stage_visit_fixed {cfg : Graph} {entry : Node} {V : Node → NodeSet}
    (b : Bool) (i : Nat) (h : Stage cfg entry (fun k => k < cfg.length) V)
    (hlt : i < cfg.length) : valVisit cfg entry (V, b) i = (V, b) := by
  by_cases hi : (i : Int) = entry
  · exact valVisit_of_eq cfg _ hi
  · rw [valVisit_of_ne cfg V b hi]
    have hn : newDomOf V i (cfg.at i) = V i := by
      by_cases hs : SelfOnly cfg i
      · have hv := h.2.1 i hlt hi hs
        rw [hv]
        apply newDomOf_selfOnly V hs
        rw [hv]; simp
      · rw [h.2.2 i hlt hi hs]
        exact newDomOf_not_selfOnly h.1 hs
    rw [hn]
    simp

theorem stage_fold_fixed {cfg : Graph} {entry : Node} (order : List Nat)
    (hord : ∀ i ∈ order, i < cfg.length) {V : Node → NodeSet} (b : Bool)
    (h : Stage cfg entry (fun k => k < cfg.length) V) :
    order.foldl (valVisit cfg entry) (V, b) = (V, b) := by
  induction order with
  | nil => rfl
  | cons i rest ih =>
    rw [List.foldl_cons, stage_visit_fixed b i h (hord i (List.mem_cons_self _ _))]
    exact ih (fun k hk => hord k (List.mem_cons_of_mem _ hk))

/-! ## The initial map and the first pass -/

theorem initDom_fold_apply (n : Nat) (entry : Node) (m : Nat) (k : Int) :
    (List.range m).foldl (initStep n entry) emptyMap k =
      if 0 ≤ k ∧ k < (m : Int) then (if k = entry then some [k] else some (allNodes n))
      else none := by
  induction m with
  | zero =>
    have hk : ¬ (0 ≤ k ∧ k < ((0 : Nat) : Int)) := by omega
    rw [if_neg hk]
    rfl
  | succ m ih =>
    rw [List.range_succ, List.foldl_append, List.foldl_cons, List.foldl_nil]
    by_cases hkm : k = (m : Int)
    · subst hkm
      have hr : 0 ≤ (m : Int) ∧ (m : Int) < ((m + 1 : Nat) : Int) := by omega
      rw [if_pos hr]
      unfold initStep
      by_cases he : (m : Int) = entry
      · rw [if_pos he, if_pos he, assign_apply, if_pos rfl]
      · rw [if_neg he, if_neg he, assign_apply, if_pos rfl]
    · have hstep : initStep n entry ((List.range m).foldl (initStep n entry) emptyMap) m k =
          (List.range m).foldl (initStep n entry) emptyMap k := by
        unfold initStep
        by_cases he : (m : Int) = entry
        · rw [if_pos he, assign_apply, if_neg hkm]
        · rw [if_neg he, assign_apply, if_neg hkm]
      rw [hstep, ih]
      by_cases hr : 0 ≤ k ∧ k < (m : Int)
      · have hr2 : 0 ≤ k ∧ k < ((m + 1 : Nat) : Int) := by omega
        rw [if_pos hr, if_pos hr2]
      · have hr2 : ¬ (0 ≤ k ∧ k < ((m + 1 : Nat) : Int)) := by omega
        rw [if_neg hr, if_neg hr2]

theorem initDom_apply (n : Nat) (entry : Node) (k : Int) :
    initDom n entry k =
      if 0 ≤ k ∧ k < (n : Int) then (if k = entry then some [k] else some (allNodes n))
      else none :=
  initDom_fold_apply n entry n k

theorem allNodes_pairwise (n : Nat) : (allNodes n).Pairwise (· < ·) := by
  unfold allNodes
  rw [List.pairwise_map]
  exact (List.pairwise_lt_range n).imp (fun h => Int.ofNat_lt.mpr h)

theorem mem_allNodes {n i : Nat} (h : i < n) : (i : Int) ∈ allNodes n := by
  unfold allNodes
  exact List.mem_map.mpr ⟨i, List.mem_range.mpr h, rfl⟩

theorem canon_initDom (n : Nat) (entry : Node) : Canon (initDom n entry) := by
  intro k s hk
  rw [initDom_apply] at hk
  by_cases hr : 0 ≤ k ∧ k < (n : Int)
  · rw [if_pos hr] at hk
    by_cases he : k = entry
    · rw [if_pos he] at hk
      cases hk
      simp
    · rw [if_neg he] at hk
      cases hk
      exact allNodes_pairwise n
  · rw [if_neg hr] at hk
    cases hk

theorem lookupSet_initDom (n : Nat) (entry : Node) (k : Int) :
    lookupSet (initDom n entry) k =
      if 0 ≤ k ∧ k < (n : Int) then (if k = entry then [k] else allNodes n) else [] := by
  unfold lookupSet
  rw [initDom_apply]
  by_cases hr : 0 ≤ k ∧ k < (n : Int)
  · by_cases he : k = entry
    · rw [if_pos hr, if_pos he, if_pos hr, if_pos he]; rfl
    · rw [if_pos hr, if_neg he, if_pos hr, if_neg he]; rfl
  · rw [if_neg hr, if_neg hr]; rfl

/-- The state of the values after the first `m` nodes of the first pass. -/
theorem firstPass_prefix (cfg : Graph) (entry : Node) (m : Nat) (hm : m ≤ cfg.length) :
    (∀ k : Int, (k < 0 ∨ (m : Int) ≤ k ∨ k = entry) →
      ((List.range m).foldl (valVisit cfg entry)
        (lookupSet (initDom cfg.length entry), false)).1 k =
        lookupSet (initDom cfg.length entry) k) ∧
    (∀ k : Nat, k < m → (k : Int) ≠ entry →
      (((List.range m).foldl (valVisit cfg entry)
          (lookupSet (initDom cfg.length entry), false)).1 k = [] ∨
        ((List.range m).foldl (valVisit cfg entry)
          (lookupSet (initDom cfg.length entry), false)).1 k = [(k : Int)]) ∧
      (SelfOnly cfg k →
        ((List.range m).foldl (valVisit cfg entry)
          (lookupSet (initDom cfg.length entry), false)).1 k = [(k : Int)])) := by
  induction m with
  | zero =>
    refine ⟨fun k _ => rfl, ?_⟩
    intro k hk
    omega
  | succ m ih =>
    obtain ⟨ih1, ih2⟩ := ih (by omega)
    rw [List.range_succ, List.foldl_append, List.foldl_cons, List.foldl_nil]
    generalize hst : (List.range m).foldl (valVisit cfg entry)
        (lookupSet (initDom cfg.length entry), false) = st at ih1 ih2 ⊢
    obtain ⟨V, b⟩ := st
    by_cases hi : (m : Int) = entry
    · rw [valVisit_of_eq cfg _ hi]
      refine ⟨fun k hk => ih1 k (by omega), ?_⟩
      intro k hk hke
      have hkm : k ≠ m := fun e => hke (by rw [e]; exact hi)
      exact ih2 k (by omega) hke
    · rw [valVisit_of_ne cfg V b hi]
      show (∀ k : Int, _ → Function.update V (m : Int) _ k = _) ∧
        (∀ k : Nat, _ → _ → (Function.update V (m : Int) _ (k : Int) = _ ∨
          Function.update V (m : Int) _ (k : Int) = _) ∧
          (_ → Function.update V (m : Int) _ (k : Int) = _))
      refine ⟨?_, ?_⟩
      · intro k hk
        have hkm : k ≠ (m : Int) := by
          rcases hk with h | h | h
          · omega
          · omega
          · intro e; exact hi (by rw [← e, h])
        rw [Function.update_noteq hkm]
        exact ih1 k (by omega)
      · intro k hk hke
        by_cases hkm : k = m
        · subst hkm
          rw [Function.update_same]
          refine ⟨newDomOf_cases _ _ _, ?_⟩
          intro hs
          apply newDomOf_selfOnly V hs
          have hv : V (k : Int) = lookupSet (initDom cfg.length entry) (k : Int) :=
            ih1 k (Or.inr (Or.inl (le_refl _)))
          rw [hv, lookupSet_initDom]
          have hr : 0 ≤ (k : Int) ∧ (k : Int) < (cfg.length : Int) := by omega
          rw [if_pos hr, if_neg hi]
          exact mem_allNodes (by omega)
        · have hk2 : (k : Int) ≠ (m : Int) := by exact_mod_cast hkm
          rw [Function.update_noteq hk2]
          exact ih2 k (by omega) hke

/-- The values after the first pass are small and every non-entry node whose
predecessors are all itself holds its singleton. -/
theorem firstPass_stage (cfg : Graph) (entry : Node) :
    Stage cfg entry (fun _ => False)
      ((List.range cfg.length).foldl (valVisit cfg entry)
        (lookupSet (initDom cfg.length entry), false)).1 := by
  obtain ⟨h1, h2⟩ := firstPass_prefix cfg entry cfg.length (le_refl _)
  refine ⟨?_, ?_, ?_⟩
  · intro (k : Int)
    by_cases hr : 0 ≤ k ∧ k < (cfg.length : Int)
    · by_cases he : k = entry
      · rw [h1 k (Or.inr (Or.inr he)), lookupSet_initDom, if_pos hr, if_pos he]
        exact Or.inr rfl
      · have hk : ((k.toNat : Nat) : Int) = k := Int.toNat_of_nonneg hr.1
        have := (h2 k.toNat (by omega) (by rw [hk]; exact he)).1
        rw [hk] at this
        exact this
    · rw [h1 k (by omega), lookupSet_initDom, if_neg hr]
      exact Or.inl rfl
  · intro i hi he hs
    exact (h2 i hi he).2 hs
  · intro i hi
    exact absurd hi id

/-! ## Passes on maps, and the run of the loop -/

theorem canon_pass (cfg : Graph) (entry : Node) {dom : DomMap} (h : Canon dom) :
    Canon (pass cfg entry dom).1 :=
  foldl_visitNode_canon cfg entry _ (dom, false) h

theorem pass_vals (cfg : Graph) (entry : Node) {dom : DomMap} (h : Canon dom) :
    (lookupSet (pass cfg entry dom).1, (pass cfg entry dom).2) =
      (List.range cfg.length).foldl (valVisit cfg entry) (lookupSet dom, false) :=
  foldl_visitNode_vals cfg entry _ (dom, false) h

theorem mem_range_lt (cfg : Graph) : ∀ i ∈ List.range cfg.length, i < cfg.length :=
  fun _ h => List.mem_range.mp h

/-- A pass that reports no change leaves every value as it was. -/
theorem pass_unchanged_vals {cfg : Graph} {entry : Node} {dom : DomMap} (h : Canon dom)
    (hc : (pass cfg entry dom).2 = false) :
    lookupSet (pass cfg entry dom).1 = lookupSet dom := by
  have hv := pass_vals cfg entry h
  have h2 : ((List.range cfg.length).foldl (valVisit cfg entry) (lookupSet dom, false)).2
      = false := by rw [← hv]; exact hc
  have h3 := (foldl_valVisit_false cfg entry _ _ _ h2).2
  rw [← hv] at h3
  exact h3

theorem pass_of_stageA {cfg : Graph} {entry : Node} {dom : DomMap} (h : Canon dom)
    (hA : Stage cfg entry (fun _ => False) (lookupSet dom)) :
    Stage cfg entry (fun k => k < cfg.length) (lookupSet (pass cfg entry dom).1) := by
  have hv := pass_vals cfg entry h
  have h1 := stage_fold (List.range cfg.length) (mem_range_lt cfg) false hA
  rw [← hv] at h1
  exact stage_mono h1 (fun k hk => Or.inl (List.mem_range.mpr hk))

theorem pass_of_stageT {cfg : Graph} {entry : Node} {dom : DomMap} (h : Canon dom)
    (hT : Stage cfg entry (fun k => k < cfg.length) (lookupSet dom)) :
    (pass cfg entry dom).2 = false ∧ lookupSet (pass cfg entry dom).1 = lookupSet dom := by
  have hv := pass_vals cfg entry h
  rw [stage_fold_fixed (List.range cfg.length) (mem_range_lt cfg) false hT] at hv
  exact ⟨congrArg Prod.snd hv, congrArg Prod.fst hv⟩

theorem iterate_lastPass {cfg : Graph} {entry : Node} (fuel : Nat) {dom r : DomMap}
    (h : Canon dom) (hr : iterate cfg entry fuel dom = some r) : LastPass cfg entry r := by
  induction fuel generalizing dom with
  | zero => simp [iterate] at hr
  | succ fuel ih =>
    unfold iterate at hr
    by_cases hc : (pass cfg entry dom).2 = true
    · rw [if_pos hc] at hr
      exact ih (canon_pass _ entry h) hr
    · rw [if_neg hc] at hr
      refine ⟨dom, h, ?_⟩
      have hc2 : (pass cfg entry dom).2 = false := by simpa using hc
      cases hr
      exact Prod.ext rfl hc2

theorem iterate_more {cfg : Graph} {entry : Node} (fuel extra : Nat) {dom r : DomMap}
    (hr : iterate cfg entry fuel dom = some r) : iterate cfg entry (fuel + extra) dom = some r := by
  induction fuel generalizing dom with
  | zero => simp [iterate] at hr
  | succ fuel ih =>
    rw [Nat.add_right_comm]
    unfold iterate at hr ⊢
    by_cases hc : (pass cfg entry dom).2 = true
    · rw [if_pos hc] at hr ⊢
      exact ih hr
    · rw [if_neg hc] at hr ⊢
      exact hr

theorem iterate_stageT {cfg : Graph} {entry : Node} {dom : DomMap} (h : Canon dom)
    (hT : Stage cfg entry (fun k => k < cfg.length) (lookupSet dom)) (fuel : Nat) :
    iterate cfg entry (fuel + 1) dom = some (pass cfg entry dom).1 := by
  unfold iterate
  rw [if_neg]
  rw [(pass_of_stageT h hT).1]
  simp

theorem iterate_stageA {cfg : Graph} {entry : Node} {dom : DomMap} (h : Canon dom)
    (hA : Stage cfg entry (fun _ => False) (lookupSet dom)) (fuel : Nat) :
    ∃ r, iterate cfg entry (fuel + 2) dom = some r ∧ Final cfg entry r := by
  have hT := pass_of_stageA h hA
  have hC := canon_pass cfg entry h
  unfold iterate
  by_cases hc : (pass cfg entry dom).2 = true
  · rw [if_pos hc, iterate_stageT hC hT]
    refine ⟨_, rfl, canon_pass _ entry hC, ?_⟩
    rw [(pass_of_stageT hC hT).2]
    exact hT
  · rw [if_neg hc]
    exact ⟨_, rfl, hC, hT⟩

/-- Three passes are enough on every graph and entry: the loop returns a map
in closed form. -/
theorem computeDominators_final (cfg : Graph) (entry : Node) (fuel : Nat) :
    ∃ r, computeDominators (fuel + 3) cfg entry = some r ∧ Final cfg entry r := by
  have h0 := canon_initDom cfg.length entry
  have hA : Stage cfg entry (fun _ => False)
      (lookupSet (pass cfg entry (initDom cfg.length entry)).1) := by
    have hv := pass_vals cfg entry h0
    have := firstPass_stage cfg entry
    rw [← hv] at this
    exact this
  have hC := canon_pass cfg entry h0
  unfold computeDominators iterate
  by_cases hc : (pass cfg entry (initDom cfg.length entry)).2 = true
  · rw [if_pos hc]
    exact iterate_stageA hC hA fuel
  · rw [if_neg hc]
    refine ⟨_, rfl, hC, ?_⟩
    have hc2 : (pass cfg entry (initDom cfg.length entry)).2 = false := by simpa using hc
    have hu := pass_unchanged_vals h0 hc2
    have hT := pass_of_stageA hC hA
    have hc3 : (pass cfg entry (pass cfg entry (initDom cfg.length entry)).1).2 = false := by
      have e1 := pass_vals cfg entry hC
      have e2 := pass_vals cfg entry h0
      rw [hu, ← e2] at e1
      have := congrArg Prod.snd e1
      simpa [hc2] using this
    rw [pass_unchanged_vals hC hc3] at hT
    exact hT

theorem visitNode_key_kept (cfg : Graph) (entry : Node) {st : DomMap × Bool} (i : Nat)
    (h : Canon st.1) {j : Node} (hj : (st.1 j).isSome) :
    ((visitNode cfg entry st i).1 j).isSome := by
  by_cases hi : (i : Int) = entry
  · rw [visitNode_entry cfg st hi]; exact hj
  · rw [visitNode_fst_apply cfg h hi]
    by_cases h1 : j = (i : Int)
    · simp [h1]
    · by_cases h2 : j ∈ cfg.at i
      · simp [h1, h2]
      · simpa [h1, h2] using hj

theorem foldl_visitNode_key_kept (cfg : Graph) (entry : Node) (order : List Nat)
    (st : DomMap × Bool) (h : Canon st.1) {j : Node} (hj : (st.1 j).isSome) :
    ((order.foldl (visitNode cfg entry) st).1 j).isSome := by
  induction order generalizing st with
  | nil => exact hj
  | cons i rest ih =>
    exact ih _ (canon_visitNode cfg entry i h) (visitNode_key_kept cfg entry i h hj)

theorem foldl_visitNode_touched (cfg : Graph) (entry : Node) (order : List Nat)
    (st : DomMap × Bool) (h : Canon st.1) {j : Node} (hj : Touched cfg entry order j) :
    ((order.foldl (visitNode cfg entry) st).1 j).isSome := by
  induction order generalizing st with
  | nil =>
    obtain ⟨i, hi, _⟩ := hj
    simp at hi
  | cons i rest ih =>
    rw [List.foldl_cons]
    obtain ⟨k, hk, hke, hkj⟩ := hj
    rcases List.mem_cons.mp hk with e | e
    · subst e
      apply foldl_visitNode_key_kept cfg entry rest _ (canon_visitNode cfg entry k h)
      rw [visitNode_fst_apply cfg h hke]
      by_cases h1 : j = (k : Int)
      · simp [h1]
      · rcases hkj with h2 | h2
        · exact absurd h2 h1
        · simp [h1, h2]
    · exact ih _ (canon_visitNode cfg entry i h) ⟨k, e, hke, hkj⟩

theorem foldl_visitNode_untouched (cfg : Graph) (entry : Node) (order : List Nat)
    (st : DomMap × Bool) (h : Canon st.1) {j : Node} (hj : ¬ Touched cfg entry order j) :
    (order.foldl (visitNode cfg entry) st).1 j = st.1 j := by
  induction order generalizing st with
  | nil => rfl
  | cons i rest ih =>
    rw [List.foldl_cons]
    have hrest : ¬ Touched cfg entry rest j := by
      rintro ⟨k, hk, hke, hkj⟩
      exact hj ⟨k, List.mem_cons_of_mem _ hk, hke, hkj⟩
    rw [ih _ (canon_visitNode cfg entry i h) hrest]
    by_cases hi : (i : Int) = entry
    · rw [visitNode_entry cfg st hi]
    · rw [visitNode_fst_apply cfg h hi]
      have h1 : ¬ j = (i : Int) := fun e => hj ⟨i, List.mem_cons_self _ _, hi, Or.inl e⟩
      have h2 : ¬ j ∈ cfg.at i := fun e => hj ⟨i, List.mem_cons_self _ _, hi, Or.inr e⟩
      rw [if_neg h1, if_neg h2]

theorem lookupSet_of_isSome {m : DomMap} {j : Node} (h : (m j).isSome) :
    m j = some (lookupSet m j) := by
  unfold lookupSet
  cases hm : m j with
  | none => rw [hm] at h; simp at h
  | some s => rfl

/-- Running one more pass on the map a no-change pass left behind gives the
same map back and reports no change. -/
theorem pass_idem {cfg : Graph} {entry : Node} {r : DomMap} (h : LastPass cfg entry r) :
    pass cfg entry r = (r, false) := by
  obtain ⟨d, hd, hp⟩ := h
  have hr1 : (pass cfg entry d).1 = r := congrArg Prod.fst hp
  have hr2 : (pass cfg entry d).2 = false := congrArg Prod.snd hp
  have hCr : Canon r := by rw [← hr1]; exact canon_pass _ entry hd
  have hvals : lookupSet r = lookupSet d := by rw [← hr1]; exact pass_unchanged_vals hd hr2
  have e1 := pass_vals cfg entry hCr
  have e2 := pass_vals cfg entry hd
  rw [hvals, ← e2, hr1, hr2] at e1
  have hflag : (pass cfg entry r).2 = false := congrArg Prod.snd e1
  have hv : lookupSet (pass cfg entry r).1 = lookupSet r := congrArg Prod.fst e1
  refine Prod.ext ?_ hflag
  funext j
  show (pass cfg entry r).1 j = r j
  by_cases ht : Touched cfg entry (List.range cfg.length) j
  · have k1 : ((pass cfg entry r).1 j).isSome :=
      foldl_visitNode_touched cfg entry _ (r, false) hCr ht
    have k2 : (r j).isSome := by
      rw [← hr1]
      exact foldl_visitNode_touched cfg entry _ (d, false) hd ht
    rw [lookupSet_of_isSome k1, lookupSet_of_isSome k2, hv]
  · exact foldl_visitNode_untouched cfg entry _ (r, false) hCr ht

/-- Whatever fuel lets the loop return, the returned map is the same. -/
theorem computeDominators_unique {cfg : Graph} {entry : Node} {f1 f2 : Nat} {r1 r2 : DomMap}
    (h1 : computeDominators f1 cfg entry = some r1)
    (h2 : computeDominators f2 cfg entry = some r2) : r1 = r2 := by
  unfold computeDominators at h1 h2
  have e1 := iterate_more f1 f2 h1
  have e2 := iterate_more f2 f1 h2
  rw [Nat.add_comm] at e2
  rw [e1] at e2
  exact Option.some.inj e2

/-- The run of `computeDominators`, for every graph and entry: with three or
more passes allowed it returns, always the same map, which is in closed form
and was left behind by a pass that reported no change. -/
theorem computeDominators_run (cfg : Graph) (entry : Node) :
    ∃ r, Final cfg entry r ∧ LastPass cfg entry r ∧
      (∀ fuel, computeDominators (fuel + 3) cfg entry = some r) ∧
      (∀ fuel d, computeDominators fuel cfg entry = some d → d = r) := by
  obtain ⟨r, hr, hF⟩ := computeDominators_final cfg entry 0
  refine ⟨r, hF, iterate_lastPass _ (canon_initDom _ _) hr, ?_, ?_⟩
  · intro fuel
    have := iterate_more (0 + 3) fuel hr
    rw [Nat.add_comm] at this
    simpa [computeDominators] using this
  · intro fuel d hd
    exact computeDominators_unique hd hr

theorem visitNode_entry_kept (cfg : Graph) (entry : Node) {st : DomMap × Bool} (i : Nat)
    (h : Canon st.1) (he : st.1 entry = some [entry]) :
    (visitNode cfg entry st i).1 entry = some [entry] := by
  by_cases hi : (i : Int) = entry
  · rw [visitNode_entry cfg st hi]; exact he
  · rw [visitNode_fst_apply cfg h hi]
    have h1 : ¬ entry = (i : Int) := fun e => hi e.symm
    rw [if_neg h1]
    by_cases h2 : entry ∈ cfg.at i
    · rw [if_pos h2]
      simp [lookupSet, he]
    · rw [if_neg h2]; exact he

theorem pass_entry_kept {cfg : Graph} {entry : Node} {dom : DomMap}
    (h : Canon dom) (he : dom entry = some [entry]) :
    (pass cfg entry dom).1 entry = some [entry] := by
  unfold pass passOver
  generalize hst : ((dom, false) : DomMap × Bool) = st
  have h0 : Canon st.1 := by rw [← hst]; exact h
  have h1 : st.1 entry = some [entry] := by rw [← hst]; exact he
  clear hst
  induction (List.range cfg.length) generalizing st with
  | nil => exact h1
  | cons i rest ih =>
    exact ih _ (canon_visitNode cfg entry i h0) (visitNode_entry_kept cfg entry i h0 h1)

theorem pass_key_kept {cfg : Graph} {entry : Node} {dom : DomMap}
    (h : Canon dom) {j : Node} (hj : (dom j).isSome) :
    ((pass cfg entry dom).1 j).isSome :=
  foldl_visitNode_key_kept cfg entry _ (dom, false) h hj

/-- A property of canonical maps that every pass preserves holds of the map the loop returns. -/
theorem iterate_invariant {cfg : Graph} {entry : Node} (I : DomMap → Prop)
    (hI : ∀ d, Canon d → I d → I (pass cfg entry d).1) (fuel : Nat) {dom r : DomMap}
    (h : Canon dom) (h0 : I dom) (hr : iterate cfg entry fuel dom = some r) : I r := by
  induction fuel generalizing dom with
  | zero => simp [iterate] at hr
  | succ fuel ih =>
    unfold iterate at hr
    by_cases hc : (pass cfg entry dom).2 = true
    · rw [if_pos hc] at hr
      exact ih (canon_pass _ entry h) (hI dom h h0) hr
    · rw [if_neg hc] at hr
      cases hr
      exact hI dom h h0

theorem extractIdom_fold_apply (dom : DomMap) (entry : Node) (m : Nat) (k : Int) :
    (List.range m).foldl (idomStep dom entry) emptyMap k =
      if 0 ≤ k ∧ k < (m : Int) ∧ k ≠ entry
      then some (selectIdom dom ((lookupSet dom k).erase k)) else none := by
  induction m with
  | zero =>
    have hk : ¬ (0 ≤ k ∧ k < ((0 : Nat) : Int) ∧ k ≠ entry) := by omega
    rw [if_neg hk]
    rfl
  | succ m ih =>
    rw [List.range_succ, List.foldl_append, List.foldl_cons, List.foldl_nil]
    rw [idomStep]
    by_cases he : (m : Int) = entry
    · rw [if_pos he, ih]
      by_cases hr : 0 ≤ k ∧ k < (m : Int) ∧ k ≠ entry
      · have hr2 : 0 ≤ k ∧ k < ((m + 1 : Nat) : Int) ∧ k ≠ entry := by omega
        rw [if_pos hr, if_pos hr2]
      · have hr2 : ¬ (0 ≤ k ∧ k < ((m + 1 : Nat) : Int) ∧ k ≠ entry) := by omega
        rw [if_neg hr, if_neg hr2]
    · rw [if_neg he, assign_apply]
      by_cases hkm : k = (m : Int)
      · have hr2 : 0 ≤ k ∧ k < ((m + 1 : Nat) : Int) ∧ k ≠ entry := by
          refine ⟨by omega, by omega, ?_⟩
          rw [hkm]; exact he
        rw [if_pos hkm, if_pos hr2, hkm]
      · rw [if_neg hkm, ih]
        by_cases hr : 0 ≤ k ∧ k < (m : Int) ∧ k ≠ entry
        · have hr2 : 0 ≤ k ∧ k < ((m + 1 : Nat) : Int) ∧ k ≠ entry := by omega
          rw [if_pos hr, if_pos hr2]
        · have hr2 : ¬ (0 ≤ k ∧ k < ((m + 1 : Nat) : Int) ∧ k ≠ entry) := by omega
          rw [if_neg hr, if_neg hr2]

theorem extractIdom_apply (n : Nat) (entry : Node) (dom : DomMap) (k : Int) :
    extractIdom n entry dom k =
      if 0 ≤ k ∧ k < (n : Int) ∧ k ≠ entry
      then some (selectIdom dom ((lookupSet dom k).erase k)) else none :=
  extractIdom_fold_apply dom entry n k

/-! ## The frontier walk -/

theorem mem_setInsert (x y : Node) (s : NodeSet) : y ∈ setInsert x s ↔ y = x ∨ y ∈ s := by
  induction s with
  | nil => simp [setInsert]
  | cons z zs ih =>
    unfold setInsert
    by_cases h1 : x < z
    · rw [if_pos h1]; simp
    · rw [if_neg h1]
      by_cases h2 : x = z
      · rw [if_pos h2]; subst h2; simp
      · rw [if_neg h2, List.mem_cons, ih, List.mem_cons]
        tauto

theorem walk_members {P : Node → Prop} (idom : IdomMap) {node : Node} (hP : P node)
    (fuel : Nat) (runner : Node) {df r : DomMap} (h : MembersSatisfy P df)
    (hr : walk idom node fuel runner df = Outcome.ok r) : MembersSatisfy P r := by
  induction fuel generalizing runner df with
  | zero => simp [walk] at hr
  | succ fuel ih =>
    unfold walk at hr
    cases hn : idom node with
    | none => simp [hn] at hr
    | some stop =>
      simp only [hn] at hr
      by_cases hne : runner ≠ stop
      · rw [if_pos hne] at hr
        cases hrn : idom runner with
        | none => simp [hrn] at hr
        | some next =>
          simp only [hrn] at hr
          refine ih next ?_ hr
          intro k s hk x hx
          rw [assign_apply] at hk
          by_cases hkr : k = runner
          · rw [if_pos hkr] at hk
            cases hk
            rcases (mem_setInsert _ _ _).mp hx with e | e
            · rw [e]; exact hP
            · rw [index_fst] at e
              unfold lookupSet at e
              cases hd : df runner with
              | none => rw [hd] at e; simp at e
              | some t => rw [hd] at e; exact h runner t hd x (by simpa using e)
          · rw [if_neg hkr, index_snd_apply, if_neg hkr] at hk
            exact h k s hk x hx
      · rw [if_neg hne] at hr
        cases hr
        exact h

theorem walkPreds_members {P : Node → Prop} (fuel : Nat) (idom : IdomMap) {node : Node}
    (hP : P node) (preds : List Node) {df r : DomMap} (h : MembersSatisfy P df)
    (hr : walkPreds fuel idom node preds df = Outcome.ok r) : MembersSatisfy P r := by
  induction preds generalizing df with
  | nil =>
    simp only [walkPreds] at hr
    cases hr
    exact h
  | cons p rest ih =>
    unfold walkPreds at hr
    cases hw : walk idom node fuel p df with
    | ok df1 =>
      simp only [hw] at hr
      exact ih (walk_members idom hP fuel p h hw) hr
    | outOfRange => simp [hw] at hr
    | timeout => simp [hw] at hr

theorem frontierLoop_members (fuel : Nat) (cfg : Graph) (idom : IdomMap) (order : List Nat)
    {df r : DomMap}
    (h : MembersSatisfy (fun x => ∃ i : Nat, x = (i : Int) ∧ 2 ≤ (cfg.at i).length) df)
    (hr : frontierLoop fuel cfg idom order df = Outcome.ok r) :
    MembersSatisfy (fun x => ∃ i : Nat, x = (i : Int) ∧ 2 ≤ (cfg.at i).length) r := by
  induction order generalizing df with
  | nil =>
    simp only [frontierLoop] at hr
    cases hr
    exact h
  | cons i rest ih =>
    unfold frontierLoop at hr
    by_cases hlen : (cfg.at i).length < 2
    · rw [if_pos hlen] at hr
      exact ih h hr
    · rw [if_neg hlen] at hr
      cases hw : walkPreds fuel idom (i : Int) (cfg.at i) df with
      | ok df1 =>
        simp only [hw] at hr
        exact ih (walkPreds_members fuel idom ⟨i, rfl, by omega⟩ (cfg.at i) h hw) hr
      | outOfRange => simp [hw] at hr
      | timeout => simp [hw] at hr

/-- Only nodes with two or more predecessors are members of a frontier set. -/
theorem computeDominanceFrontier_members (fuel : Nat) (cfg : Graph) (idom : IdomMap)
    {r : DomMap} (hr : computeDominanceFrontier fuel cfg idom = Outcome.ok r) :
    MembersSatisfy (fun x => ∃ i : Nat, x = (i : Int) ∧ 2 ≤ (cfg.at i).length) r := by
  refine frontierLoop_members fuel cfg idom _ ?_ hr
  intro k s hk
  simp [emptyMap] at hk

theorem walk_more (idom : IdomMap) (node : Node) (fuel extra : Nat) (runner : Node)
    (df : DomMap) (h : walk idom node fuel runner df ≠ Outcome.timeout) :
    walk idom node (fuel + extra) runner df = walk idom node fuel runner df := by
  induction fuel generalizing runner df with
  | zero => exact absurd rfl h
  | succ fuel ih =>
    rw [Nat.add_right_comm]
    unfold walk at h ⊢
    cases hn : idom node with
    | none => rfl
    | some stop =>
      simp only [hn] at h ⊢
      by_cases hne : runner ≠ stop
      · simp only [if_pos hne] at h ⊢
        cases hrn : idom runner with
        | none => rfl
        | some next =>
          simp only [hrn] at h ⊢
          exact ih _ _ h
      · simp only [if_neg hne]

theorem walkPreds_more (fuel extra : Nat) (idom : IdomMap) (node : Node) (preds : List Node)
    (df : DomMap) (h : walkPreds fuel idom node preds df ≠ Outcome.timeout) :
    walkPreds (fuel + extra) idom node preds df = walkPreds fuel idom node preds df := by
  induction preds generalizing df with
  | nil => rfl
  | cons p rest ih =>
    unfold walkPreds at h ⊢
    cases hw : walk idom node fuel p df with
    | ok df1 =>
      have hw2 := walk_more idom node fuel extra p df (by rw [hw]; simp)
      rw [hw] at hw2
      simp only [hw, hw2] at h ⊢
      exact ih df1 h
    | outOfRange =>
      have hw2 := walk_more idom node fuel extra p df (by rw [hw]; simp)
      rw [hw] at hw2
      simp only [hw2]
    | timeout => simp [hw] at h

theorem frontierLoop_more (fuel extra : Nat) (cfg : Graph) (idom : IdomMap) (order : List Nat)
    (df : DomMap) (h : frontierLoop fuel cfg idom order df ≠ Outcome.timeout) :
    frontierLoop (fuel + extra) cfg idom order df = frontierLoop fuel cfg idom order df := by
  induction order generalizing df with
  | nil => rfl
  | cons i rest ih =>
    unfold frontierLoop at h ⊢
    by_cases hlen : (cfg.at i).length < 2
    · simp only [if_pos hlen] at h ⊢
      exact ih df h
    · simp only [if_neg hlen] at h ⊢
      cases hw : walkPreds fuel idom (i : Int) (cfg.at i) df with
      | ok df1 =>
        have hw2 := walkPreds_more fuel extra idom (i : Int) (cfg.at i) df (by rw [hw]; simp)
        rw [hw] at hw2
        simp only [hw, hw2] at h ⊢
        exact ih df1 h
      | outOfRange =>
        have hw2 := walkPreds_more fuel extra idom (i : Int) (cfg.at i) df (by rw [hw]; simp)
        rw [hw] at hw2
        simp only [hw2]
      | timeout => simp [hw] at h

/-- More fuel does not change the outcome of a run of `computeDominators`
that three passes complete. -/
theorem computeDominators_fuel (cfg : Graph) (entry : Node) (fuel : Nat) :
    computeDominators (fuel + 3) cfg entry = computeDominators 3 cfg entry := by
  obtain ⟨r, _, _, h, _⟩ := computeDominators_run cfg entry
  rw [h fuel]
  have := h 0
  rw [Nat.zero_add] at this
  rw [this]

/-- More fuel does not change a frontier that fuel 3 is enough for. -/
theorem frontierOf_more {cfg : Graph} {entry : Node} {df : DomMap}
    (h : frontierOf 3 cfg entry = some (Outcome.ok df)) (fuel : Nat) :
    frontierOf (fuel + 3) cfg entry = some (Outcome.ok df) := by
  unfold frontierOf computeImmediateDominators at h ⊢
  rw [computeDominators_fuel]
  cases hd : computeDominators 3 cfg entry with
  | none => rw [hd] at h; simp at h
  | some dom =>
    rw [hd] at h
    simp only [Option.map_some'] at h ⊢
    have h1 : computeDominanceFrontier 3 cfg (extractIdom cfg.length entry dom) =
        Outcome.ok df := Option.some.inj h
    have h2 := frontierLoop_more 3 fuel cfg (extractIdom cfg.length entry dom)
      (List.range cfg.length) emptyMap (by
        unfold computeDominanceFrontier at h1
        rw [h1]; simp)
    unfold computeDominanceFrontier at h1 ⊢
    rw [Nat.add_comm, h2, h1]

theorem isPath_first_mem (cfg : Graph) (b a : Node) (path : List Node)
    (h : IsPath cfg b a path) : a ∈ path := by
  cases path with
  | nil => exact absurd h id
  | cons v rest =>
    cases rest with
    | nil => rw [h.1]; simp
    | cons w rest => rw [h.1]; simp

theorem isPath_last_mem (cfg : Graph) (b : Node) (path : List Node) :
    ∀ a, IsPath cfg b a path → b ∈ path := by
  induction path with
  | nil => intro a h; exact absurd h id
  | cons v rest ih =>
    intro a h
    cases rest with
    | nil => rw [h.2]; simp
    | cons w rest => exact List.mem_cons_of_mem _ (ih w h.2.2)

theorem mem_newDomOf (V : Node → NodeSet) (i x : Node) (preds : List Node) :
    x ∈ newDomOf V i preds ↔ (x = i ∧ ∀ p ∈ preds, x ∈ V p) := by
  unfold newDomOf
  by_cases hall : preds.all (fun p => (V p).contains i) = true
  · rw [if_pos hall]
    rw [List.all_eq_true] at hall
    constructor
    · intro hx
      have hxi : x = i := by simpa using hx
      refine ⟨hxi, fun p hp => ?_⟩
      rw [hxi]
      simpa using hall p hp
    · intro hx
      simp [hx.1]
  · rw [if_neg hall]
    constructor
    · intro hx
      simp at hx
    · intro hx
      exfalso
      apply hall
      rw [List.all_eq_true]
      intro p hp
      have := hx.2 p hp
      rw [hx.1] at this
      simpa using this

/-- In the last stage the set recomputed for a non-entry node is the set it holds. -/
theorem final_newDomOf {cfg : Graph} {entry : Node} {r : DomMap} (hF : Final cfg entry r)
    {i : Nat} (hlt : i < cfg.length) (hi : (i : Int) ≠ entry) :
    newDomOf (lookupSet r) i (cfg.at i) = lookupSet r i := by
  have h := stage_visit_fixed false i hF.2 hlt
  rw [valVisit_of_ne cfg _ false hi] at h
  have h1 := congrFun (congrArg Prod.fst h) (i : Int)
  simpa using h1

/-- Every node of the graph has a set in the map `computeDominators` returns. -/
theorem computeDominators_keys {cfg : Graph} {entry : Node} {fuel : Nat} {r : DomMap}
    (hr : computeDominators fuel cfg entry = some r) :
    ∀ i : Nat, i < cfg.length → (r (i : Int)).isSome := by
  refine iterate_invariant (fun d => ∀ i : Nat, i < cfg.length → (d (i : Int)).isSome)
    (fun d hd hI i hi => pass_key_kept hd (hI i hi)) fuel (canon_initDom _ _) ?_ hr
  intro i hi
  rw [initDom_apply]
  have hr : 0 ≤ (i : Int) ∧ (i : Int) < (cfg.length : Int) := by omega
  rw [if_pos hr]
  by_cases he : (i : Int) = entry
  · rw [if_pos he]; rfl
  · rw [if_neg he]; rfl

theorem frontierOf_members {fuel : Nat} {cfg : Graph} {entry : Node} {df : DomMap}
    (h : frontierOf fuel cfg entry = some (Outcome.ok df)) :
    MembersSatisfy (fun x => ∃ i : Nat, x = (i : Int) ∧ 2 ≤ (cfg.at i).length) df := by
  unfold frontierOf at h
  cases hi : computeImmediateDominators fuel cfg entry with
  | none => rw [hi] at h; simp at h
  | some idom =>
    rw [hi] at h
    exact computeDominanceFrontier_members fuel cfg idom (Option.some.inj h)

theorem computeImmediateDominators_fuel (cfg : Graph) (entry : Node) (fuel : Nat) :
    computeImmediateDominators (fuel + 3) cfg entry = computeImmediateDominators 3 cfg entry := by
  unfold computeImmediateDominators
  rw [computeDominators_fuel]

/-- The selection step finds no candidate when the set of the node is empty
or the singleton of the node. -/
theorem selectIdom_of_small (dom : DomMap) (k : Node) {s : NodeSet}
    (hs : s = [] ∨ s = [k]) : selectIdom dom (s.erase k) = -1 := by
  rcases hs with h | h
  · rw [h]; simp [selectIdom]
  · rw [h]; simp [selectIdom]

/-- An entry inside the graph keeps the set `{entry}` in the returned map. -/
theorem computeDominators_entry {cfg : Graph} {entry : Node} {fuel : Nat} {r : DomMap}
    (h0 : 0 ≤ entry) (h1 : entry < (cfg.length : Int))
    (hr : computeDominators fuel cfg entry = some r) : r entry = some [entry] := by
  refine iterate_invariant (fun d => d entry = some [entry])
    (fun d hd he => pass_entry_kept hd he) fuel (canon_initDom _ _) ?_ hr
  show initDom cfg.length entry entry = some [entry]
  rw [initDom_apply, if_pos ⟨h0, h1⟩, if_pos rfl]

/-- On an ascending list `find?` returns the least element that satisfies the test. -/
theorem find_first_min (p : Node → Bool) (l : NodeSet) (hl : l.Pairwise (· < ·)) (d : Node)
    (h : l.find? p = some d) : d ∈ l ∧ p d = true ∧ ∀ x ∈ l, p x = true → d ≤ x := by
  induction l with
  | nil => simp at h
  | cons y ys ih =>
    rw [List.pairwise_cons] at hl
    by_cases hy : p y = true
    · rw [List.find?_cons_of_pos _ hy] at h
      cases h
      refine ⟨List.mem_cons_self _ _, hy, ?_⟩
      intro x hx _
      rcases List.mem_cons.mp hx with e | e
      · rw [e]
      · exact le_of_lt (hl.1 x e)
    · rw [List.find?_cons_of_neg _ hy] at h
      obtain ⟨h1, h2, h3⟩ := ih hl.2 h
      refine ⟨List.mem_cons_of_mem _ h1, h2, ?_⟩
      intro x hx hpx
      rcases List.mem_cons.mp hx with e | e
      · rw [e] at hpx; exact absurd hpx hy
      · exact h3 x e hpx

theorem mem_erase_strictDom {dom : DomMap} {i : Node}
    (hs : (lookupSet dom i).Pairwise (· < ·)) (x : Node) :
    x ∈ (lookupSet dom i).erase i ↔ StrictDom dom i x := by
  have hnd : (lookupSet dom i).Nodup := hs.imp (fun h => ne_of_lt h)
  rw [hnd.mem_erase_iff]
  exact ⟨fun h => ⟨h.2, h.1⟩, fun h => ⟨h.2, h.1⟩⟩

theorem isClosest_iff {dom : DomMap} {i : Node}
    (hs : (lookupSet dom i).Pairwise (· < ·)) (d : Node) :
    isClosest dom ((lookupSet dom i).erase i) d = true ↔ ClosestFor dom i d := by
  unfold isClosest ClosestFor
  rw [List.all_eq_true]
  constructor
  · intro h d' hd' hne hmem
    have := h d' ((mem_erase_strictDom hs d').mpr hd')
    simp [hne, hmem] at this
  · intro h d' hd'
    have h1 := h d' ((mem_erase_strictDom hs d').mp hd')
    by_cases hne : d' = d
    · simp [hne]
    · have h2 := h1 hne
      simp [hne, h2]

/-- A walk whose first step already arrives at `idom(node)` ends normally
after recording `node` at its start. -/
theorem walk_one_step (idom : IdomMap) (node p stop : Node) (df : DomMap) (fuel : Nat)
    (hn : idom node = some stop) (hp : idom p = some stop) (hne : p ≠ stop) :
    walk idom node (fuel + 2) p df =
      Outcome.ok (assign (index df p).2 p (setInsert node (index df p).1)) := by
  rw [walk]
  simp only [hn, hp, if_pos hne]
  rw [walk]
  simp only [hn]
  rw [if_neg (not_not.mpr rfl)]

/-- A walk that starts at a node without immediate dominator fails at its first lookup. -/
theorem walk_lookup_fails (idom : IdomMap) (node p stop : Node) (df : DomMap) (fuel : Nat)
    (hn : idom node = some stop) (hp : idom p = none) (hne : p ≠ stop) :
    walk idom node (fuel + 1) p df = Outcome.outOfRange := by
  rw [walk]
  simp only [hn, hp, if_pos hne]

/-- A walk whose first step misses `idom(node)` and arrives at a node
without immediate dominator fails at its second lookup. -/
theorem walk_past_stop (idom : IdomMap) (node p q stop : Node) (df : DomMap) (fuel : Nat)
    (hn : idom node = some stop) (hp : idom p = some q) (hne : p ≠ stop)
    (hq : q ≠ stop) (hq2 : idom q = none) :
    walk idom node (fuel + 2) p df = Outcome.outOfRange := by
  rw [walk]
  simp only [hn, hp, if_pos hne]
  exact walk_lookup_fails idom node q stop _ fuel hn hq2 hq

/-- A walk for a node that is no key of `idom` fails at its first loop test. -/
theorem walk_node_missing (idom : IdomMap) (node p : Node) (df : DomMap) (fuel : Nat)
    (hn : idom node = none) : walk idom node (fuel + 1) p df = Outcome.outOfRange := by
  rw [walk]
  simp only [hn]

/-- More fuel does not change an outcome of the pipeline that fuel 3 reaches. -/
theorem frontierOf_fuel {cfg : Graph} {entry : Node} {o : Outcome DomMap}
    (h : frontierOf 3 cfg entry = some o) (hne : o ≠ Outcome.timeout) (fuel : Nat) :
    frontierOf (fuel + 3) cfg entry = some o := by
  unfold frontierOf computeImmediateDominators at h ⊢
  rw [computeDominators_fuel]
  cases hd : computeDominators 3 cfg entry with
  | none => rw [hd] at h; simp at h
  | some dom =>
    rw [hd] at h
    simp only [Option.map_some'] at h ⊢
    have h1 : computeDominanceFrontier 3 cfg (extractIdom cfg.length entry dom) = o :=
      Option.some.inj h
    have h2 := frontierLoop_more 3 fuel cfg (extractIdom cfg.length entry dom)
      (List.range cfg.length) emptyMap (by
        unfold computeDominanceFrontier at h1
        rw [h1]; exact hne)
    unfold computeDominanceFrontier at h1 ⊢
    rw [Nat.add_comm, h2, h1]

theorem onWalk_step {idom : IdomMap} {node runner next stop : Node}
    (hn : idom node = some stop) (hne : runner ≠ stop) (hr : idom runner = some next)
    (r : Node) : OnWalk idom node runner r ↔ (r = runner ∨ OnWalk idom node next r) := by
  constructor
  · rintro ⟨stop2, hs2, k, hk, hall⟩
    cases k with
    | zero =>
      left
      simp only [chainAt] at hk
      exact (Option.some.inj hk).symm
    | succ k =>
      right
      refine ⟨stop2, hs2, k, ?_, ?_⟩
      · simpa only [chainAt, hr] using hk
      · intro j hj
        have := hall (j + 1) (by omega)
        simpa only [chainAt, hr] using this
  · rintro (h | ⟨stop2, hs2, k, hk, hall⟩)
    · refine ⟨stop, hn, 0, by rw [h]; rfl, ?_⟩
      intro j hj
      have hj0 : j = 0 := by omega
      rw [hj0]
      simp only [chainAt]
      intro e
      exact hne (Option.some.inj e)
    · refine ⟨stop2, hs2, k + 1, by simpa only [chainAt, hr] using hk, ?_⟩
      intro j hj
      cases j with
      | zero =>
        simp only [chainAt]
        intro e
        rw [hn] at hs2
        exact hne ((Option.some.inj e).trans (Option.some.inj hs2).symm)
      | succ j =>
        have := hall j (by omega)
        simpa only [chainAt, hr] using this

theorem onWalk_at_stop {idom : IdomMap} {node runner : Node}
    (hn : idom node = some runner) (r : Node) : ¬ OnWalk idom node runner r := by
  rintro ⟨stop2, hs2, k, _, hall⟩
  rw [hn] at hs2
  have := hall 0 (Nat.zero_le _)
  simp only [chainAt] at this
  exact this hs2

theorem mem_lookupSet_insert (df : DomMap) (runner node r x : Node) :
    x ∈ lookupSet (assign (index df runner).2 runner (setInsert node (index df runner).1)) r ↔
      (x ∈ lookupSet df r ∨ (r = runner ∧ x = node)) := by
  unfold lookupSet
  rw [assign_apply]
  by_cases hr : r = runner
  · rw [if_pos hr, index_fst, hr]
    simp only [Option.getD_some, mem_setInsert]
    unfold lookupSet
    tauto
  · rw [if_neg hr, index_snd_apply, if_neg hr]
    simp [hr]

/-- The members a completed walk leaves in the frontier sets. -/
theorem walk_mem (idom : IdomMap) (node : Node) (fuel : Nat) (runner : Node)
    {df r : DomMap} (hr : walk idom node fuel runner df = Outcome.ok r) (k x : Node) :
    x ∈ lookupSet r k ↔ (x ∈ lookupSet df k ∨ (x = node ∧ OnWalk idom node runner k)) := by
  induction fuel generalizing runner df with
  | zero => simp [walk] at hr
  | succ fuel ih =>
    unfold walk at hr
    cases hn : idom node with
    | none => simp [hn] at hr
    | some stop =>
      simp only [hn] at hr
      by_cases hne : runner ≠ stop
      · rw [if_pos hne] at hr
        cases hrn : idom runner with
        | none => simp [hrn] at hr
        | some next =>
          simp only [hrn] at hr
          rw [ih next hr, mem_lookupSet_insert, onWalk_step hn hne hrn]
          tauto
      · rw [if_neg hne] at hr
        cases hr
        have he : runner = stop := not_not.mp hne
        rw [← he] at hn
        have := onWalk_at_stop hn k
        tauto

theorem walkPreds_mem (fuel : Nat) (idom : IdomMap) (node : Node) (preds : List Node)
    {df r : DomMap} (hr : walkPreds fuel idom node preds df = Outcome.ok r) (k x : Node) :
    x ∈ lookupSet r k ↔
      (x ∈ lookupSet df k ∨ (x = node ∧ ∃ p ∈ preds, OnWalk idom node p k)) := by
  induction preds generalizing df with
  | nil =>
    simp only [walkPreds] at hr
    cases hr
    simp
  | cons p rest ih =>
    unfold walkPreds at hr
    cases hw : walk idom node fuel p df with
    | ok df1 =>
      simp only [hw] at hr
      rw [ih hr, walk_mem idom node fuel p hw]
      simp only [List.mem_cons, exists_eq_or_imp]
      tauto
    | outOfRange => simp [hw] at hr
    | timeout => simp [hw] at hr

theorem frontierLoop_mem (fuel : Nat) (cfg : Graph) (idom : IdomMap) (order : List Nat)
    {df r : DomMap} (hr : frontierLoop fuel cfg idom order df = Outcome.ok r) (k x : Node) :
    x ∈ lookupSet r k ↔
      (x ∈ lookupSet df k ∨ ∃ i ∈ order, x = (i : Int) ∧ 2 ≤ (cfg.at i).length ∧
        ∃ p ∈ cfg.at i, OnWalk idom (i : Int) p k) := by
  induction order generalizing df with
  | nil =>
    simp only [frontierLoop] at hr
    cases hr
    simp
  | cons i rest ih =>
    unfold frontierLoop at hr
    by_cases hlen : (cfg.at i).length < 2
    · rw [if_pos hlen] at hr
      rw [ih hr]
      simp only [List.mem_cons, exists_eq_or_imp]
      constructor
      · rintro (h | h)
        · exact Or.inl h
        · exact Or.inr (Or.inr h)
      · rintro (h | h | h)
        · exact Or.inl h
        · omega
        · exact Or.inr h
    · rw [if_neg hlen] at hr
      cases hw : walkPreds fuel idom (i : Int) (cfg.at i) df with
      | ok df1 =>
        simp only [hw] at hr
        rw [ih hr, walkPreds_mem fuel idom (i : Int) (cfg.at i) hw]
        simp only [List.mem_cons, exists_eq_or_imp]
        have hl2 : 2 ≤ (cfg.at i).length := by omega
        constructor
        · rintro ((h | ⟨hx, hp⟩) | h)
          · exact Or.inl h
          · exact Or.inr (Or.inl ⟨hx, hl2, hp⟩)
          · exact Or.inr (Or.inr h)
        · rintro (h | ⟨hx, _, hp⟩ | h)
          · exact Or.inl (Or.inl h)
          · exact Or.inl (Or.inr ⟨hx, hp⟩)
          · exact Or.inr h
      | outOfRange => simp [hw] at hr
      | timeout => simp [hw] at hr

/-- The members of the frontier sets of a map `computeDominanceFrontier` returns. -/
theorem computeDominanceFrontier_mem (fuel : Nat) (cfg : Graph) (idom : IdomMap)
    {r : DomMap} (hr : computeDominanceFrontier fuel cfg idom = Outcome.ok r) (k x : Node) :
    x ∈ lookupSet r k ↔
      ∃ i : Nat, i < cfg.length ∧ x = (i : Int) ∧ 2 ≤ (cfg.at i).length ∧
        ∃ p ∈ cfg.at i, OnWalk idom (i : Int) p k := by
  unfold computeDominanceFrontier at hr
  rw [frontierLoop_mem fuel cfg idom _ hr]
  simp only [lookupSet, emptyMap, Option.getD_none, List.not_mem_nil, false_or, List.mem_range]

/-- On a map in closed form the extraction loop records `-1` for every
non-entry node. -/
theorem extractIdom_final {cfg : Graph} {entry : Node} {r : DomMap} (hF : Final cfg entry r) :
    extractIdom cfg.length entry r = noneIdom cfg.length entry := by
  funext k
  show extractIdom cfg.length entry r k = noneIdom cfg.length entry k
  rw [extractIdom_apply]
  unfold noneIdom
  by_cases hc : 0 ≤ k ∧ k < (cfg.length : Int) ∧ k ≠ entry
  · rw [if_pos hc, if_pos hc, selectIdom_of_small r k (hF.2.1 k)]
  · rw [if_neg hc, if_neg hc]

/-- The map `computeImmediateDominators` returns, for every graph and entry. -/
theorem computeImmediateDominators_eq (cfg : Graph) (entry : Node) (fuel : Nat) :
    computeImmediateDominators (fuel + 3) cfg entry = some (noneIdom cfg.length entry) := by
  obtain ⟨r, hF, _, h, _⟩ := computeDominators_run cfg entry
  unfold computeImmediateDominators
  rw [h fuel]
  simp only [Option.map_some']
  rw [extractIdom_final hF]

theorem frontierOf_eq (cfg : Graph) (entry : Node) (fuel : Nat) :
    frontierOf (fuel + 3) cfg entry =
      some (computeDominanceFrontier (fuel + 3) cfg (noneIdom cfg.length entry)) := by
  unfold frontierOf
  rw [computeImmediateDominators_eq]
  rfl

theorem noneIdom_of_node {n : Nat} {entry : Node} {k : Int}
    (h0 : 0 ≤ k) (h1 : k < (n : Int)) (hne : k ≠ entry) : noneIdom n entry k = some (-1) := by
  unfold noneIdom
  rw [if_pos ⟨h0, h1, hne⟩]

theorem noneIdom_entry (n : Nat) (entry : Node) : noneIdom n entry entry = none := by
  unfold noneIdom
  rw [if_neg]
  intro h
  exact h.2.2 rfl

theorem onWalk_noneIdom {idom : IdomMap} {node p : Node}
    (hn : idom node = some (-1)) (hp : idom p = some (-1)) (hne : p ≠ -1) (r : Node) :
    OnWalk idom node p r ↔ r = p := by
  constructor
  · rintro ⟨stop, hs, k, hk, hall⟩
    rw [hn] at hs
    cases k with
    | zero =>
      simp only [chainAt] at hk
      exact (Option.some.inj hk).symm
    | succ k =>
      exfalso
      have := hall 1 (by omega)
      simp only [chainAt, hp] at this
      exact this hs
  · intro h
    refine ⟨-1, hn, 0, by rw [h]; rfl, ?_⟩
    intro j hj
    have hj0 : j = 0 := by omega
    rw [hj0]
    simp only [chainAt]
    intro e
    exact hne (Option.some.inj e)

/-- The walks for a non-entry node on the all-`-1` map: they end normally
unless the entry is among the predecessors. -/
theorem walkPreds_noneIdom (n : Nat) (entry : Node) (fuel : Nat) (node : Int)
    (h0 : 0 ≤ node) (h1 : node < (n : Int)) (hne : node ≠ entry) (preds : List Node)
    (hpreds : ∀ p ∈ preds, 0 ≤ p ∧ p < (n : Int)) (df : DomMap) :
    (entry ∉ preds →
      ∃ r, walkPreds (fuel + 2) (noneIdom n entry) node preds df = Outcome.ok r) ∧
    (entry ∈ preds →
      walkPreds (fuel + 2) (noneIdom n entry) node preds df = Outcome.outOfRange) := by
  have hn := noneIdom_of_node h0 h1 hne
  induction preds generalizing df with
  | nil =>
    refine ⟨fun _ => ⟨df, rfl⟩, ?_⟩
    intro h
    simp at h
  | cons p rest ih =>
    have hp := hpreds p (List.mem_cons_self _ _)
    have hrest : ∀ q ∈ rest, 0 ≤ q ∧ q < (n : Int) :=
      fun q hq => hpreds q (List.mem_cons_of_mem _ hq)
    have hp1 : p ≠ -1 := by
      intro e
      have h2 := hp.1
      rw [e] at h2
      exact absurd h2 (by decide)
    by_cases hpe : p = entry
    · have hw : walk (noneIdom n entry) node (fuel + 1 + 1) p df = Outcome.outOfRange := by
        refine walk_lookup_fails (noneIdom n entry) node p (-1) df (fuel + 1) hn ?_ hp1
        rw [hpe]
        exact noneIdom_entry n entry
      constructor
      · intro h
        exact absurd (by rw [hpe]; exact List.mem_cons_self _ _) h
      · intro _
        unfold walkPreds
        simp only [hw]
    · have hw := walk_one_step (noneIdom n entry) node p (-1) df fuel hn
        (noneIdom_of_node hp.1 hp.2 hpe) hp1
      have hih := ih hrest (assign (index df p).2 p (setInsert node (index df p).1))
      constructor
      · intro h
        have hr : entry ∉ rest := fun e => h (List.mem_cons_of_mem _ e)
        unfold walkPreds
        simp only [hw]
        exact hih.1 hr
      · intro h
        have hr : entry ∈ rest := by
          rcases List.mem_cons.mp h with e | e
          · exact absurd e.symm hpe
          · exact e
        unfold walkPreds
        simp only [hw]
        exact hih.2 hr

/-- The frontier loop on the all-`-1` map: it returns a map unless some node
with two or more predecessors has the entry among them, and then it ends in
`std::out_of_range`. -/
theorem frontierLoop_noneIdom (cfg : Graph) (entry : Node) (fuel : Nat) (order : List Nat)
    (horder : ∀ i ∈ order, i < cfg.length)
    (hpreds : ∀ i ∈ order, ∀ p ∈ cfg.at i, 0 ≤ p ∧ p < (cfg.length : Int))
    (hentry : ∀ i ∈ order, 2 ≤ (cfg.at i).length → (i : Int) ≠ entry) (df : DomMap) :
    ((∀ i ∈ order, 2 ≤ (cfg.at i).length → entry ∉ cfg.at i) →
      ∃ r, frontierLoop (fuel + 2) cfg (noneIdom cfg.length entry) order df = Outcome.ok r) ∧
    ((∃ i ∈ order, 2 ≤ (cfg.at i).length ∧ entry ∈ cfg.at i) →
      frontierLoop (fuel + 2) cfg (noneIdom cfg.length entry) order df =
        Outcome.outOfRange) := by
  induction order generalizing df with
  | nil =>
    refine ⟨fun _ => ⟨df, rfl⟩, ?_⟩
    rintro ⟨i, hi, _⟩
    simp at hi
  | cons i rest ih =>
    have hi := List.mem_cons_self i rest
    have ih2 := fun df1 => ih (fun k hk => horder k (List.mem_cons_of_mem _ hk))
      (fun k hk => hpreds k (List.mem_cons_of_mem _ hk))
      (fun k hk => hentry k (List.mem_cons_of_mem _ hk)) df1
    by_cases hlen : (cfg.at i).length < 2
    · constructor
      · intro h
        unfold frontierLoop
        rw [if_pos hlen]
        exact (ih2 df).1 (fun k hk => h k (List.mem_cons_of_mem _ hk))
      · rintro ⟨k, hk, hk2, hke⟩
        unfold frontierLoop
        rw [if_pos hlen]
        refine (ih2 df).2 ⟨k, ?_, hk2, hke⟩
        rcases List.mem_cons.mp hk with e | e
        · rw [e] at hk2; omega
        · exact e
    · have hl2 : 2 ≤ (cfg.at i).length := by omega
      have hw := walkPreds_noneIdom cfg.length entry fuel (i : Int) (by omega)
        (by have := horder i hi; omega) (hentry i hi hl2) (cfg.at i) (hpreds i hi) df
      by_cases hie : entry ∈ cfg.at i
      · constructor
        · intro h
          exact absurd hie (h i hi hl2)
        · intro _
          unfold frontierLoop
          rw [if_neg hlen]
          simp only [hw.2 hie]
      · obtain ⟨r1, hr1⟩ := hw.1 hie
        constructor
        · intro h
          unfold frontierLoop
          rw [if_neg hlen]
          simp only [hr1]
          exact (ih2 r1).1 (fun k hk => h k (List.mem_cons_of_mem _ hk))
        · rintro ⟨k, hk, hk2, hke⟩
          unfold frontierLoop
          rw [if_neg hlen]
          simp only [hr1]
          refine (ih2 r1).2 ⟨k, ?_, hk2, hke⟩
          rcases List.mem_cons.mp hk with e | e
          · rw [e] at hke; exact absurd hke hie
          · exact e

theorem validGraph_preds {cfg : Graph} {entry : Node} (hv : ValidGraph cfg entry)
    (i : Nat) (p : Node) (hp : p ∈ cfg.at i) : 0 ≤ p ∧ p < (cfg.length : Int) := by
  unfold Graph.at at hp
  by_cases hi : i < cfg.length
  · rw [List.getD_eq_getElem _ _ hi] at hp
    exact hv.2.2.1 _ (List.getElem_mem _) p hp
  · rw [List.getD_eq_default _ _ (by omega)] at hp
    simp at hp

theorem validGraph_merge_ne_entry {cfg : Graph} {entry : Node} (hv : ValidGraph cfg entry)
    (i : Nat) (hlen : 2 ≤ (cfg.at i).length) : (i : Int) ≠ entry := by
  intro e
  have h4 := hv.2.2.2
  rw [← e] at h4
  simp only [Int.toNat_ofNat] at h4
  rw [h4] at hlen
  simp at hlen

theorem chainAt_rank (idom : IdomMap) (f : Int → Int)
    (hf : ∀ k v, idom k = some v → f k < f v) (j : Nat) (k r : Node)
    (h : chainAt idom j k = some r) : f k ≤ f r ∧ (0 < j → f k < f r) := by
  induction j generalizing k with
  | zero =>
    simp only [chainAt] at h
    rw [Option.some.inj h]
    exact ⟨le_refl _, fun h0 => absurd h0 (lt_irrefl 0)⟩
  | succ j ih =>
    rw [chainAt] at h
    cases hk : idom k with
    | none => simp [hk] at h
    | some q =>
      simp only [hk] at h
      have h1 := hf k q hk
      have h2 := (ih q h).1
      exact ⟨by omega, fun _ => by omega⟩

/-- A map along which some rank strictly grows has no cycle. -/
theorem acyclic_of_rank (idom : IdomMap) (f : Int → Int)
    (hf : ∀ k v, idom k = some v → f k < f v) : Acyclic idom := by
  intro k j hj h
  have := (chainAt_rank idom f hf j k k h).2 hj
  omega

theorem chainAt_add (idom : IdomMap) (a c : Nat) (p r : Node)
    (h : chainAt idom a p = some r) : chainAt idom (a + c) p = chainAt idom c r := by
  induction a generalizing p with
  | zero =>
    simp only [chainAt] at h
    rw [Nat.zero_add, Option.some.inj h]
  | succ a ih =>
    rw [chainAt] at h
    rw [Nat.add_right_comm, chainAt]
    cases hp : idom p with
    | none => simp [hp] at h
    | some q =>
      simp only [hp] at h ⊢
      exact ih q h

/-- A walk that runs out of fuel has met a key of the map at each of its tests. -/
theorem walk_timeout_chain (idom : IdomMap) (node : Node) (fuel : Nat) (p : Node)
    (df : DomMap) (h : walk idom node fuel p df = Outcome.timeout) :
    ∀ j, j < fuel → ∃ r, chainAt idom j p = some r ∧ (idom r).isSome := by
  induction fuel generalizing p df with
  | zero => intro j hj; omega
  | succ fuel ih =>
    unfold walk at h
    cases hn : idom node with
    | none => simp [hn] at h
    | some stop =>
      simp only [hn] at h
      by_cases hne : p ≠ stop
      · rw [if_pos hne] at h
        cases hp : idom p with
        | none => simp [hp] at h
        | some next =>
          simp only [hp] at h
          intro j hj
          cases j with
          | zero => exact ⟨p, rfl, by rw [hp]; rfl⟩
          | succ j =>
            obtain ⟨r, hr, hs⟩ := ih next _ h j (by omega)
            refine ⟨r, ?_, hs⟩
            rw [chainAt]
            simp only [hp]
            exact hr
      · rw [if_neg hne] at h
        simp at h

/-- With keys inside the graph and no cycle, a walk allowed `n + 1` loop tests
does not run out of fuel. -/
theorem walk_no_timeout (n : Nat) (idom : IdomMap)
    (hkeys : ∀ k : Int, (idom k).isSome → 0 ≤ k ∧ k < (n : Int)) (hacyc : Acyclic idom)
    (node p : Node) (df : DomMap) : walk idom node (n + 1) p df ≠ Outcome.timeout := by
  intro h
  have hch := walk_timeout_chain idom node (n + 1) p df h
  have hmaps : ∀ j ∈ Finset.range (n + 1),
      ((chainAt idom j p).getD 0).toNat ∈ Finset.range n := by
    intro j hj
    obtain ⟨r, hr, hs⟩ := hch j (Finset.mem_range.mp hj)
    have hk := hkeys r hs
    rw [hr]
    simp only [Option.getD_some, Finset.mem_range]
    omega
  obtain ⟨a, ha, b, hb, hab, hfab⟩ :=
    Finset.exists_ne_map_eq_of_card_lt_of_maps_to (by simp) hmaps
  obtain ⟨ra, hra, hsa⟩ := hch a (Finset.mem_range.mp ha)
  obtain ⟨rb, hrb, hsb⟩ := hch b (Finset.mem_range.mp hb)
  rw [hra, hrb] at hfab
  simp only [Option.getD_some] at hfab
  have hka := hkeys ra hsa
  have hkb := hkeys rb hsb
  have hrr : ra = rb := by
    have hc : ((ra.toNat : Nat) : Int) = ((rb.toNat : Nat) : Int) := by rw [hfab]
    rw [Int.toNat_of_nonneg hka.1, Int.toNat_of_nonneg hkb.1] at hc
    exact hc
  rcases Nat.lt_or_gt_of_ne hab with hlt | hlt
  · have hc := chainAt_add idom a (b - a) p ra hra
    rw [show a + (b - a) = b by omega, hrb, ← hrr] at hc
    exact hacyc ra (b - a) (by omega) hc.symm
  · have hc := chainAt_add idom b (a - b) p rb hrb
    rw [show b + (a - b) = a by omega, hra, hrr] at hc
    exact hacyc rb (a - b) (by omega) hc.symm

theorem walkPreds_no_timeout (fuel : Nat) (idom : IdomMap) (node : Node)
    (hw : ∀ p df, walk idom node fuel p df ≠ Outcome.timeout) (preds : List Node)
    (df : DomMap) : walkPreds fuel idom node preds df ≠ Outcome.timeout := by
  induction preds generalizing df with
  | nil => simp [walkPreds]
  | cons p rest ih =>
    unfold walkPreds
    cases h : walk idom node fuel p df with
    | ok df1 => simp only [h]; exact ih df1
    | outOfRange => simp [h]
    | timeout => exact absurd h (hw p df)

theorem frontierLoop_no_timeout (fuel : Nat) (cfg : Graph) (idom : IdomMap)
    (hw : ∀ node p df, walk idom node fuel p df ≠ Outcome.timeout) (order : List Nat)
    (df : DomMap) : frontierLoop fuel cfg idom order df ≠ Outcome.timeout := by
  induction order generalizing df with
  | nil => simp [frontierLoop]
  | cons i rest ih =>
    unfold frontierLoop
    by_cases hlen : (cfg.at i).length < 2
    · rw [if_pos hlen]; exact ih df
    · rw [if_neg hlen]
      cases h : walkPreds fuel idom (i : Int) (cfg.at i) df with
      | ok df1 => simp only [h]; exact ih df1
      | outOfRange => simp [h]
      | timeout => exact absurd h (walkPreds_no_timeout fuel idom _ (hw _) _ df)

theorem noneIdom_keys (n : Nat) (entry : Node) (k : Int)
    (h : (noneIdom n entry k).isSome) : 0 ≤ k ∧ k < (n : Int) := by
  unfold noneIdom at h
  by_cases hc : 0 ≤ k ∧ k < (n : Int) ∧ k ≠ entry
  · exact ⟨hc.1, hc.2.1⟩
  · rw [if_neg hc] at h
    simp at h

theorem acyclic_noneIdom (n : Nat) (entry : Node) : Acyclic (noneIdom n entry) := by
  refine acyclic_of_rank _ (fun k => -k) ?_
  intro (k : Int) (v : Int) h
  have hk := noneIdom_keys n entry k (by rw [h]; rfl)
  unfold noneIdom at h
  by_cases hc : 0 ≤ k ∧ k < (n : Int) ∧ k ≠ entry
  · rw [if_pos hc] at h
    have hv : (-1 : Int) = v := Option.some.inj h
    show -k < -v
    omega
  · rw [if_neg hc] at h
    simp at h

theorem acyclic_longIdom : Acyclic longIdom := by
  refine acyclic_of_rank _ (fun k => k) ?_
  intro (k : Int) (v : Int) h
  show k < v
  unfold longIdom at h
  split_ifs at h <;> simp at h <;> subst_vars <;> decide

theorem chainAt_one (idom : IdomMap) (r : Node) : chainAt idom 1 r = idom r := by
  rw [chainAt]
  cases idom r with
  | none => rfl
  | some q => rfl

/-- With keys inside a graph of `n` nodes and no cycle, the sequence
`p, idom(p), ...` meets `idom(node)` or a failed lookup within `n` steps. -/
theorem chain_bound (n : Nat) (idom : IdomMap)
    (hkeys : ∀ k : Int, (idom k).isSome → 0 ≤ k ∧ k < (n : Int)) (hacyc : Acyclic idom)
    (node p stop : Node) (hn : idom node = some stop) :
    ∃ j, j ≤ n ∧ (chainAt idom j p = none ∨ chainAt idom j p = some stop) := by
  by_contra hcon
  push_neg at hcon
  have hdef : ∀ j, j ≤ n → ∃ r, chainAt idom j p = some r ∧ r ≠ stop := by
    intro j hj
    obtain ⟨h1, h2⟩ := hcon j hj
    cases hc : chainAt idom j p with
    | none => exact absurd hc h1
    | some r => exact ⟨r, rfl, fun e => h2 (by rw [hc, e])⟩
  have hnext : ∀ j, j < n → ∀ r, chainAt idom j p = some r →
      idom r = chainAt idom (j + 1) p := by
    intro j _ r hr
    rw [chainAt_add idom j 1 p r hr, chainAt_one]
  have hkey : ∀ j, j < n → ∀ r, chainAt idom j p = some r → 0 ≤ r ∧ r < (n : Int) := by
    intro j hj r hr
    apply hkeys r
    rw [hnext j hj r hr]
    obtain ⟨q, hq, _⟩ := hdef (j + 1) (by omega)
    rw [hq]
    rfl
  have hnode := hkeys node (by rw [hn]; rfl)
  have hmaps : ∀ j ∈ Finset.range (n + 1),
      (if j = n then node.toNat else ((chainAt idom j p).getD 0).toNat) ∈ Finset.range n := by
    intro j hj
    have hj2 := Finset.mem_range.mp hj
    by_cases hjn : j = n
    · rw [if_pos hjn, Finset.mem_range]
      have := hnode.1
      have := hnode.2
      omega
    · rw [if_neg hjn, Finset.mem_range]
      obtain ⟨r, hr, _⟩ := hdef j (by omega)
      have hk := hkey j (by omega) r hr
      rw [hr]
      simp only [Option.getD_some]
      exact (Int.toNat_lt hk.1).mpr hk.2
  obtain ⟨a, ha, b, hb, hab, hfab⟩ :=
    Finset.exists_ne_map_eq_of_card_lt_of_maps_to (by simp) hmaps
  have ha2 := Finset.mem_range.mp ha
  have hb2 := Finset.mem_range.mp hb
  -- two chain positions with the same node give a cycle
  have cyc : ∀ a b, a < b → b < n →
      ((chainAt idom a p).getD 0).toNat = ((chainAt idom b p).getD 0).toNat → False := by
    intro a b hlt hbn he
    obtain ⟨ra, hra, _⟩ := hdef a (by omega)
    obtain ⟨rb, hrb, _⟩ := hdef b (by omega)
    have hka := hkey a (by omega) ra hra
    have hkb := hkey b hbn rb hrb
    rw [hra, hrb] at he
    simp only [Option.getD_some] at he
    have hrr : ra = rb := by
      have hc : ((ra.toNat : Nat) : Int) = ((rb.toNat : Nat) : Int) := by rw [he]
      rw [Int.toNat_of_nonneg hka.1, Int.toNat_of_nonneg hkb.1] at hc
      exact hc
    have hc := chainAt_add idom a (b - a) p ra hra
    rw [show a + (b - a) = b by omega, hrb, ← hrr] at hc
    exact hacyc ra (b - a) (by omega) hc.symm
  -- a chain position that holds `node` is followed by `idom(node)`
  have hit : ∀ a, a < n → ((chainAt idom a p).getD 0).toNat = node.toNat → False := by
    intro a han he
    obtain ⟨ra, hra, _⟩ := hdef a (by omega)
    have hka := hkey a han ra hra
    rw [hra] at he
    simp only [Option.getD_some] at he
    have hrr : ra = node := by
      have hc : ((ra.toNat : Nat) : Int) = ((node.toNat : Nat) : Int) := by rw [he]
      rw [Int.toNat_of_nonneg hka.1, Int.toNat_of_nonneg hnode.1] at hc
      exact hc
    have h1 := hnext a han ra hra
    rw [hrr, hn] at h1
    exact (hcon (a + 1) (by omega)).2 h1.symm
  by_cases han : a = n
  · have hbn : b ≠ n := fun e => hab (han.trans e.symm)
    rw [if_pos han, if_neg hbn] at hfab
    exact hit b (by omega) hfab.symm
  · by_cases hbn : b = n
    · rw [if_neg han, if_pos hbn] at hfab
      exact hit a (by omega) hfab
    · rw [if_neg han, if_neg hbn] at hfab
      rcases Nat.lt_or_gt_of_ne hab with hlt | hlt
      · exact cyc a b hlt (by omega) hfab
      · exact cyc b a hlt (by omega) hfab.symm

theorem iterate_eq_iterateInOrder (cfg : Graph) (entry : Node) (fuel : Nat) (dom : DomMap) :
    iterate cfg entry fuel dom = iterateInOrder cfg entry (List.range cfg.length) fuel dom := by
  induction fuel generalizing dom with
  | zero => rfl
  | succ fuel ih =>
    unfold iterate iterateInOrder
    rw [ih]
    rfl

theorem computeDominators_eq_inOrder (fuel : Nat) (cfg : Graph) (entry : Node) :
    computeDominators fuel cfg entry =
      computeDominatorsInOrder (List.range cfg.length) fuel cfg entry :=
  iterate_eq_iterateInOrder cfg entry fuel _

theorem firstPassInv_visit (cfg : Graph) (entry : Node) (done : List Nat) (V : Node → NodeSet)
    (b : Bool) (i : Nat) (hi : i ∉ done) (hlt : i < cfg.length)
    (h : FirstPassInv cfg entry done V) :
    FirstPassInv cfg entry (i :: done) (valVisit cfg entry (V, b) i).1 := by
  by_cases hie : (i : Int) = entry
  · rw [valVisit_of_eq cfg _ hie]
    refine ⟨?_, ?_⟩
    · intro j hj
      apply h.1 j
      rcases hj with hj | hj
      · exact Or.inl (fun k hk => hj k (List.mem_cons_of_mem _ hk))
      · exact Or.inr hj
    · intro k hk hke
      rcases List.mem_cons.mp hk with e | e
      · rw [e] at hke; exact absurd hie hke
      · exact h.2 k e hke
  · rw [valVisit_of_ne cfg V b hie]
    show FirstPassInv cfg entry (i :: done)
      (Function.update V (i : Int) (newDomOf V i (cfg.at i)))
    refine ⟨?_, ?_⟩
    · intro j hj
      have hji : j ≠ (i : Int) := by
        rcases hj with hj | hj
        · exact fun e => hj i (List.mem_cons_self _ _) e.symm
        · intro e; exact hie (by rw [← e, hj])
      rw [Function.update_noteq hji]
      apply h.1 j
      rcases hj with hj | hj
      · exact Or.inl (fun k hk => hj k (List.mem_cons_of_mem _ hk))
      · exact Or.inr hj
    · intro k hk hke
      rcases List.mem_cons.mp hk with e | e
      · subst e
        rw [Function.update_same]
        refine ⟨newDomOf_cases _ _ _, ?_⟩
        intro hs
        apply newDomOf_selfOnly V hs
        have hv : V (k : Int) = lookupSet (initDom cfg.length entry) (k : Int) := by
          apply h.1
          left
          intro k2 hk2 e2
          have : k2 = k := by exact_mod_cast e2
          rw [this] at hk2
          exact hi hk2
        rw [hv, lookupSet_initDom]
        have hr : 0 ≤ (k : Int) ∧ (k : Int) < (cfg.length : Int) := by omega
        rw [if_pos hr, if_neg hie]
        exact mem_allNodes hlt
      · have hki : (k : Int) ≠ (i : Int) := by
          intro e2
          have : k = i := by exact_mod_cast e2
          rw [this] at e
          exact hi e
        rw [Function.update_noteq hki]
        exact h.2 k e hke

theorem firstPassInv_fold (cfg : Graph) (entry : Node) (order : List Nat) (hnd : order.Nodup)
    (hlt : ∀ i ∈ order, i < cfg.length) (done : List Nat) (hdisj : ∀ i ∈ order, i ∉ done)
    (V : Node → NodeSet) (b : Bool) (h : FirstPassInv cfg entry done V) :
    FirstPassInv cfg entry (order.reverse ++ done)
      (order.foldl (valVisit cfg entry) (V, b)).1 := by
  induction order generalizing done V b with
  | nil => exact h
  | cons i rest ih =>
    rw [List.nodup_cons] at hnd
    rw [List.foldl_cons, List.reverse_cons, List.append_assoc]
    have h1 := firstPassInv_visit cfg entry done V b i (hdisj i (List.mem_cons_self _ _))
      (hlt i (List.mem_cons_self _ _)) h
    refine ih hnd.2 (fun k hk => hlt k (List.mem_cons_of_mem _ hk)) (i :: done) ?_ _ _ h1
    intro k hk hk2
    rcases List.mem_cons.mp hk2 with e | e
    · rw [e] at hk; exact hnd.1 hk
    · exact hdisj k (List.mem_cons_of_mem _ hk) e

/-- The values after a first pass in any order that visits every node once. -/
theorem firstPass_stage_inOrder (cfg : Graph) (entry : Node) (order : List Nat)
    (hperm : order.Perm (List.range cfg.length)) :
    Stage cfg entry (fun _ => False)
      (order.foldl (valVisit cfg entry) (lookupSet (initDom cfg.length entry), false)).1 := by
  have hnd : order.Nodup := hperm.nodup_iff.mpr (List.nodup_range _)
  have hmem : ∀ i, i ∈ order ↔ i < cfg.length := fun i =>
    (hperm.mem_iff).trans List.mem_range
  have h0 : FirstPassInv cfg entry [] (lookupSet (initDom cfg.length entry)) :=
    ⟨fun _ _ => rfl, fun k hk => by simp at hk⟩
  have h := firstPassInv_fold cfg entry order hnd (fun i hi => (hmem i).mp hi) []
    (fun _ _ hk => by simp at hk) _ false h0
  rw [List.append_nil] at h
  refine ⟨?_, ?_, ?_⟩
  · intro (j : Int)
    by_cases hr : 0 ≤ j ∧ j < (cfg.length : Int)
    · by_cases he : j = entry
      · rw [h.1 j (Or.inr he), lookupSet_initDom, if_pos hr, if_pos he]
        exact Or.inr rfl
      · have hk : ((j.toNat : Nat) : Int) = j := Int.toNat_of_nonneg hr.1
        have hin : j.toNat ∈ order.reverse :=
          List.mem_reverse.mpr ((hmem _).mpr (by omega))
        have := (h.2 j.toNat hin (by rw [hk]; exact he)).1
        rw [hk] at this
        exact this
    · rw [h.1 j (Or.inl ?_), lookupSet_initDom, if_neg hr]
      · exact Or.inl rfl
      · intro k hk e
        have := (hmem k).mp (List.mem_reverse.mp hk)
        omega
  · intro i hi he hs
    exact (h.2 i (List.mem_reverse.mpr ((hmem i).mpr hi)) he).2 hs
  · intro i hi
    exact absurd hi id

theorem passOver_vals (cfg : Graph) (entry : Node) (order : List Nat) {dom : DomMap}
    (h : Canon dom) :
    (lookupSet (passOver cfg entry order dom).1, (passOver cfg entry order dom).2) =
      order.foldl (valVisit cfg entry) (lookupSet dom, false) :=
  foldl_visitNode_vals cfg entry order (dom, false) h

theorem canon_passOver (cfg : Graph) (entry : Node) (order : List Nat) {dom : DomMap}
    (h : Canon dom) : Canon (passOver cfg entry order dom).1 :=
  foldl_visitNode_canon cfg entry order (dom, false) h

theorem passOver_unchanged_vals {cfg : Graph} {entry : Node} (order : List Nat) {dom : DomMap}
    (h : Canon dom) (hc : (passOver cfg entry order dom).2 = false) :
    lookupSet (passOver cfg entry order dom).1 = lookupSet dom := by
  have hv := passOver_vals cfg entry order h
  have h2 : (order.foldl (valVisit cfg entry) (lookupSet dom, false)).2 = false := by
    rw [← hv]; exact hc
  have h3 := (foldl_valVisit_false cfg entry _ _ _ h2).2
  rw [← hv] at h3
  exact h3

theorem passOver_of_stageA {cfg : Graph} {entry : Node} (order : List Nat)
    (hmem : ∀ i, i ∈ order ↔ i < cfg.length) {dom : DomMap} (h : Canon dom)
    (hA : Stage cfg entry (fun _ => False) (lookupSet dom)) :
    Stage cfg entry (fun k => k < cfg.length) (lookupSet (passOver cfg entry order dom).1) := by
  have hv := passOver_vals cfg entry order h
  have h1 := stage_fold order (fun i hi => (hmem i).mp hi) false hA
  rw [← hv] at h1
  exact stage_mono h1 (fun k hk => Or.inl ((hmem k).mpr hk))

theorem passOver_of_stageT {cfg : Graph} {entry : Node} (order : List Nat)
    (hmem : ∀ i, i ∈ order ↔ i < cfg.length) {dom : DomMap} (h : Canon dom)
    (hT : Stage cfg entry (fun k => k < cfg.length) (lookupSet dom)) :
    (passOver cfg entry order dom).2 = false ∧
      lookupSet (passOver cfg entry order dom).1 = lookupSet dom := by
  have hv := passOver_vals cfg entry order h
  rw [stage_fold_fixed order (fun i hi => (hmem i).mp hi) false hT] at hv
  exact ⟨congrArg Prod.snd hv, congrArg Prod.fst hv⟩

theorem iterateInOrder_more {cfg : Graph} {entry : Node} (order : List Nat) (fuel extra : Nat)
    {dom r : DomMap} (hr : iterateInOrder cfg entry order fuel dom = some r) :
    iterateInOrder cfg entry order (fuel + extra) dom = some r := by
  induction fuel generalizing dom with
  | zero => simp [iterateInOrder] at hr
  | succ fuel ih =>
    rw [Nat.add_right_comm]
    unfold iterateInOrder at hr ⊢
    by_cases hc : (passOver cfg entry order dom).2 = true
    · rw [if_pos hc] at hr ⊢
      exact ih hr
    · rw [if_neg hc] at hr ⊢
      exact hr

/-- Three passes in any order that visits every node once end in the closed form. -/
theorem iterateInOrder_final (cfg : Graph) (entry : Node) (order : List Nat)
    (hperm : order.Perm (List.range cfg.length)) :
    ∃ r, iterateInOrder cfg entry order 3 (initDom cfg.length entry) = some r ∧
      Final cfg entry r := by
  have hmem : ∀ i, i ∈ order ↔ i < cfg.length := fun i =>
    (hperm.mem_iff).trans List.mem_range
  have h0 := canon_initDom cfg.length entry
  have hC1 := canon_passOver cfg entry order h0
  have hA : Stage cfg entry (fun _ => False)
      (lookupSet (passOver cfg entry order (initDom cfg.length entry)).1) := by
    have hv := passOver_vals cfg entry order h0
    have := firstPass_stage_inOrder cfg entry order hperm
    rw [← hv] at this
    exact this
  have hT2 := passOver_of_stageA order hmem hC1 hA
  have hC2 := canon_passOver cfg entry order hC1
  have hfix2 := passOver_of_stageT order hmem hC2 hT2
  unfold iterateInOrder
  by_cases hc : (passOver cfg entry order (initDom cfg.length entry)).2 = true
  · rw [if_pos hc]
    unfold iterateInOrder
    by_cases hc2 : (passOver cfg entry order
        (passOver cfg entry order (initDom cfg.length entry)).1).2 = true
    · rw [if_pos hc2]
      unfold iterateInOrder
      rw [if_neg (by rw [hfix2.1]; simp)]
      refine ⟨_, rfl, canon_passOver cfg entry order hC2, ?_⟩
      rw [hfix2.2]
      exact hT2
    · rw [if_neg hc2]
      exact ⟨_, rfl, hC2, hT2⟩
  · rw [if_neg hc]
    refine ⟨_, rfl, hC1, ?_⟩
    have hc1 : (passOver cfg entry order (initDom cfg.length entry)).2 = false := by
      simpa using hc
    have hu := passOver_unchanged_vals order h0 hc1
    have hc3 : (passOver cfg entry order
        (passOver cfg entry order (initDom cfg.length entry)).1).2 = false := by
      have e1 := passOver_vals cfg entry order hC1
      have e2 := passOver_vals cfg entry order h0
      rw [hu, ← e2] at e1
      have := congrArg Prod.snd e1
      simpa [hc1] using this
    rw [passOver_unchanged_vals order hC1 hc3] at hT2
    exact hT2

theorem foldl_visitNode_lookupSet_const (cfg : Graph) (entry : Node) (order : List Nat)
    (st : DomMap × Bool) (h : Canon st.1) (j : Node)
    (hj : ∀ i ∈ order, (i : Int) = j → (i : Int) = entry) :
    lookupSet (order.foldl (visitNode cfg entry) st).1 j = lookupSet st.1 j := by
  induction order generalizing st with
  | nil => rfl
  | cons i rest ih =>
    rw [List.foldl_cons, ih _ (canon_visitNode cfg entry i h)
      (fun k hk => hj k (List.mem_cons_of_mem _ hk))]
    have hv := congrArg Prod.fst (visitNode_vals cfg entry i h)
    have hv2 : lookupSet (visitNode cfg entry st i).1 =
        (valVisit cfg entry (lookupSet st.1, st.2) i).1 := hv
    rw [hv2]
    by_cases hie : (i : Int) = entry
    · rw [valVisit_of_eq cfg _ hie]
    · rw [valVisit_of_ne cfg _ _ hie]
      have hji : j ≠ (i : Int) := fun e => hie (hj i (List.mem_cons_self _ _) e.symm)
      exact Function.update_noteq hji _ _

theorem passOver_keys (cfg : Graph) (entry : Node) (order : List Nat) {dom : DomMap}
    (h : Canon dom) (j : Node) :
    ((passOver cfg entry order dom).1 j).isSome ↔
      ((dom j).isSome ∨ Touched cfg entry order j) := by
  constructor
  · intro hs
    by_cases ht : Touched cfg entry order j
    · exact Or.inr ht
    · left
      have := foldl_visitNode_untouched cfg entry order (dom, false) h ht
      unfold passOver at hs
      rw [this] at hs
      exact hs
  · rintro (hs | ht)
    · exact foldl_visitNode_key_kept cfg entry order (dom, false) h hs
    · exact foldl_visitNode_touched cfg entry order (dom, false) h ht

theorem touched_congr (cfg : Graph) (entry : Node) {o1 o2 : List Nat}
    (hmem : ∀ i, i ∈ o1 ↔ i ∈ o2) (j : Node) :
    Touched cfg entry o1 j ↔ Touched cfg entry o2 j := by
  constructor
  · rintro ⟨i, hi, h⟩
    exact ⟨i, (hmem i).mp hi, h⟩
  · rintro ⟨i, hi, h⟩
    exact ⟨i, (hmem i).mpr hi, h⟩

theorem runInv_initDom (cfg : Graph) (entry : Node) (order : List Nat) :
    RunInv cfg entry order (initDom cfg.length entry) := by
  refine ⟨fun _ _ => rfl, ?_, ?_⟩
  · intro j hj
    rw [initDom_apply, if_pos hj]
    by_cases he : j = entry
    · rw [if_pos he]; rfl
    · rw [if_neg he]; rfl
  · intro j hj
    left
    rw [initDom_apply] at hj
    by_cases hr : 0 ≤ j ∧ j < (cfg.length : Int)
    · exact hr
    · rw [if_neg hr] at hj
      simp at hj

theorem runInv_passOver (cfg : Graph) (entry : Node) (order : List Nat)
    (hlt : ∀ i ∈ order, i < cfg.length) {d : DomMap} (h : Canon d)
    (hI : RunInv cfg entry order d) : RunInv cfg entry order (passOver cfg entry order d).1 := by
  refine ⟨?_, ?_, ?_⟩
  · intro j hj
    rw [← hI.1 j hj]
    apply foldl_visitNode_lookupSet_const cfg entry order (d, false) h j
    intro i hi e
    rcases hj with hj | hj
    · rw [e, hj]
    · exfalso
      apply hj
      have := hlt i hi
      rw [← e]
      omega
  · intro j hj
    exact (passOver_keys cfg entry order h j).mpr (Or.inl (hI.2.1 j hj))
  · intro j hj
    rcases (passOver_keys cfg entry order h j).mp hj with hs | ht
    · exact hI.2.2 j hs
    · exact Or.inr ht

/-- The map the loop in order returns is what a pass left from a map of the run. -/
theorem iterateInOrder_result (cfg : Graph) (entry : Node) (order : List Nat)
    (hlt : ∀ i ∈ order, i < cfg.length) (fuel : Nat) {dom r : DomMap} (h : Canon dom)
    (hI : RunInv cfg entry order dom)
    (hr : iterateInOrder cfg entry order fuel dom = some r) :
    ∃ d, Canon d ∧ RunInv cfg entry order d ∧ r = (passOver cfg entry order d).1 := by
  induction fuel generalizing dom with
  | zero => simp [iterateInOrder] at hr
  | succ fuel ih =>
    unfold iterateInOrder at hr
    by_cases hc : (passOver cfg entry order dom).2 = true
    · rw [if_pos hc] at hr
      exact ih (canon_passOver cfg entry order h) (runInv_passOver cfg entry order hlt h hI) hr
    · rw [if_neg hc] at hr
      exact ⟨dom, h, hI, (Option.some.inj hr).symm⟩

/-- The solver in any order that visits every node once returns, within three
passes, the converged map. -/
theorem computeDominatorsInOrder_converged (cfg : Graph) (entry : Node) (order : List Nat)
    (hperm : order.Perm (List.range cfg.length)) :
    ∃ r, computeDominatorsInOrder order 3 cfg entry = some r ∧ Converged cfg entry r := by
  have hmem : ∀ i, i ∈ order ↔ i ∈ List.range cfg.length := fun i => hperm.mem_iff
  have hlt : ∀ i ∈ order, i < cfg.length := fun i hi => List.mem_range.mp ((hmem i).mp hi)
  obtain ⟨r, hr, hF⟩ := iterateInOrder_final cfg entry order hperm
  obtain ⟨d, hd, hI, hrd⟩ := iterateInOrder_result cfg entry order hlt 3
    (canon_initDom _ _) (runInv_initDom cfg entry order) hr
  have hIr : RunInv cfg entry order r := by
    rw [hrd]
    exact runInv_passOver cfg entry order hlt hd hI
  refine ⟨r, hr, hF, hIr.1, ?_⟩
  intro j
  rw [← touched_congr cfg entry hmem j]
  constructor
  · exact hIr.2.2 j
  · rintro (hj | ht)
    · exact hIr.2.1 j hj
    · rw [hrd]
      exact (passOver_keys cfg entry order hd j).mpr (Or.inr ht)

/-- There is one converged map. -/
theorem converged_unique {cfg : Graph} {entry : Node} {r1 r2 : DomMap}
    (h1 : Converged cfg entry r1) (h2 : Converged cfg entry r2) : r1 = r2 := by
  funext (j : Int)
  have hval : lookupSet r1 j = lookupSet r2 j := by
    by_cases hc : j = entry ∨ ¬ (0 ≤ j ∧ j < (cfg.length : Int))
    · rw [h1.2.1 j hc, h2.2.1 j hc]
    · have hne : j ≠ entry := fun e => hc (Or.inl e)
      have hr : 0 ≤ j ∧ j < (cfg.length : Int) := by
        by_contra hn
        exact hc (Or.inr hn)
      have hk : ((j.toNat : Nat) : Int) = j := Int.toNat_of_nonneg hr.1
      have hlt : j.toNat < cfg.length := by omega
      have hne2 : ((j.toNat : Nat) : Int) ≠ entry := by rw [hk]; exact hne
      by_cases hs : SelfOnly cfg j.toNat
      · have e1 := h1.1.2.2.1 j.toNat hlt hne2 hs
        have e2 := h2.1.2.2.1 j.toNat hlt hne2 hs
        rw [hk] at e1 e2
        rw [e1, e2]
      · have e1 := h1.1.2.2.2 j.toNat hlt hne2 hs
        have e2 := h2.1.2.2.2 j.toNat hlt hne2 hs
        rw [hk] at e1 e2
        rw [e1, e2]
  by_cases hk : (0 ≤ j ∧ j < (cfg.length : Int)) ∨ Touched cfg entry (List.range cfg.length) j
  · rw [lookupSet_of_isSome ((h1.2.2 j).mpr hk), lookupSet_of_isSome ((h2.2.2 j).mpr hk), hval]
  · have n1 : r1 j = none := by
      cases hr : r1 j with
      | none => rfl
      | some s => exact absurd ((h1.2.2 j).mp (by rw [hr]; rfl)) hk
    have n2 : r2 j = none := by
      cases hr : r2 j with
      | none => rfl
      | some s => exact absurd ((h2.2.2 j).mp (by rw [hr]; rfl)) hk
    rw [n1, n2]

/-! ## The iteration for arbitrary initial sets -/

theorem computeDominatorsFrom_allNodes (fuel : Nat) (cfg : Graph) (entry : Node) :
    computeDominatorsFrom (fun _ => allNodes cfg.length) fuel cfg entry =
      computeDominators fuel cfg entry := rfl

theorem newDomOf_nil (V : Node → NodeSet) (i : Node) : newDomOf V i [] = [i] := rfl

/-- C1 (the code fails it): on the diamond graph, which is structurally valid,
node 1 is reachable from the entry and both 0 and 1 lie on every path from the
entry to node 1, yet the set `computeDominators` returns for node 1 is empty. -/
theorem C1_diamond_dominators_missing :
    ValidGraph diamond 0 ∧ Reachable diamond 0 1 ∧
    Dominates diamond 0 0 1 ∧ Dominates diamond 0 1 1 ∧
    ∃ dom, (∀ fuel, computeDominators (fuel + 3) diamond 0 = some dom) ∧ dom 1 = some [] := by
  refine ⟨by decide, ⟨[0, 1], rfl, ⟨by decide, by decide⟩, rfl, rfl⟩, ?_, ?_, ?_⟩
  · intro path h
    exact isPath_first_mem diamond 1 0 path h
  · intro path h
    exact isPath_last_mem diamond 1 path 0 h
  · obtain ⟨r, _, _, h, _⟩ := computeDominators_run diamond 0
    refine ⟨r, h, ?_⟩
    have h3 : computeDominators 3 diamond 0 = some r := h 0
    have h4 : (computeDominators 3 diamond 0).map (fun d => d 1) = some (some []) := by decide
    rw [h3] at h4
    exact Option.some.inj h4

/-- C2 (the code fails it): on the diamond graph with entry 0,
`computeImmediateDominators` records the sentinel `-1` for each of the nodes
1, 2, 3 and 4, not the immediate dominators 0, 1, 1, 1. -/
theorem C2_diamond_idom_all_none :
    ∃ idom, (∀ fuel, computeImmediateDominators (fuel + 3) diamond 0 = some idom) ∧
      idom 1 = some (-1) ∧ idom 2 = some (-1) ∧ idom 3 = some (-1) ∧ idom 4 = some (-1) := by
  have h4 : (computeImmediateDominators 3 diamond 0).map (fun d => [d 1, d 2, d 3, d 4]) =
      some [some (-1), some (-1), some (-1), some (-1)] := by decide
  cases h3 : computeImmediateDominators 3 diamond 0 with
  | none => rw [h3] at h4; simp at h4
  | some idom =>
    rw [h3] at h4
    have h5 : [idom 1, idom 2, idom 3, idom 4] =
        [some (-1), some (-1), some (-1), some (-1)] := Option.some.inj h4
    simp only [List.cons.injEq, and_true] at h5
    refine ⟨idom, ?_, h5⟩
    intro fuel
    unfold computeImmediateDominators at h3 ⊢
    rw [computeDominators_fuel]
    exact h3

/-- C3: on the diamond graph with entry 0, `computeDominanceFrontier` applied
to the graph and to the map returned by `computeImmediateDominators` returns
a map with frontier(2) = {4}, frontier(3) = {4} and no entry for the nodes 0,
1 and 4. -/
theorem C3_diamond_frontier :
    ∃ df, (∀ fuel, frontierOf (fuel + 3) diamond 0 = some (Outcome.ok df)) ∧
      df 2 = some [4] ∧ df 3 = some [4] ∧ df 0 = none ∧ df 1 = none ∧ df 4 = none := by
  have h3 : ∃ df, frontierOf 3 diamond 0 = some (Outcome.ok df) ∧
      [df 2, df 3, df 0, df 1, df 4] = [some [4], some [4], none, none, none] :=
    ⟨_, rfl, by decide⟩
  obtain ⟨df, hdf, h5⟩ := h3
  simp only [List.cons.injEq, and_true] at h5
  exact ⟨df, frontierOf_more hdf, h5⟩

/-- C4 (the code fails it): on the diamond graph, which is structurally valid,
the set `computeDominators` returns for node 1 does not contain node 1. -/
theorem C4_diamond_node_not_in_own_set :
    ValidGraph diamond 0 ∧
    ∃ dom, (∀ fuel, computeDominators (fuel + 3) diamond 0 = some dom) ∧
      (1 : Node) ∉ lookupSet dom 1 := by
  refine ⟨by decide, ?_⟩
  obtain ⟨r, _, _, h, _⟩ := computeDominators_run diamond 0
  refine ⟨r, h, ?_⟩
  have h3 : computeDominators 3 diamond 0 = some r := h 0
  have h4 : (computeDominators 3 diamond 0).map (fun d => lookupSet d 1) = some [] := by
    decide
  rw [h3] at h4
  have h5 : lookupSet r 1 = [] := Option.some.inj h4
  rw [h5]
  simp

/-- C5: for every structurally valid graph and entry, `computeDominators`
returns (three passes are enough, and more fuel gives the same map) and the
set it returns for the entry node is exactly `{entry}`: the initial map holds
`{entry}` for the entry and no pass changes it. -/
theorem C5_entry_set (cfg : Graph) (entry : Node) (hv : ValidGraph cfg entry) :
    ∃ dom, (∀ fuel, computeDominators (fuel + 3) cfg entry = some dom) ∧
      (∀ fuel d, computeDominators fuel cfg entry = some d → d = dom) ∧
      dom entry = some [entry] ∧
      initDom cfg.length entry entry = some [entry] ∧
      (∀ d, Canon d → d entry = some [entry] → (pass cfg entry d).1 entry = some [entry]) := by
  obtain ⟨r, _, _, h, hu⟩ := computeDominators_run cfg entry
  have hinit : initDom cfg.length entry entry = some [entry] := by
    rw [initDom_apply, if_pos ⟨hv.1, hv.2.1⟩, if_pos rfl]
  refine ⟨r, h, hu, ?_, hinit, fun d hd he => pass_entry_kept hd he⟩
  have h3 : computeDominators 3 cfg entry = some r := h 0
  exact iterate_invariant (fun d => d entry = some [entry])
    (fun d hd he => pass_entry_kept hd he) 3 (canon_initDom _ _) hinit h3

/-- Witness of C5 on the diamond graph with entry 0. -/
theorem C5_entry_set_witness :
    ValidGraph diamond 0 ∧
    ∃ dom, (∀ fuel, computeDominators (fuel + 3) diamond 0 = some dom) ∧
      (∀ fuel d, computeDominators fuel diamond 0 = some d → d = dom) ∧
      dom 0 = some [0] ∧
      initDom diamond.length 0 0 = some [0] ∧
      (∀ d, Canon d → d 0 = some [0] → (pass diamond 0 d).1 0 = some [0]) :=
  ⟨by decide, C5_entry_set diamond 0 (by decide)⟩

/-- C6: a non-entry node `i` of the graph with an empty predecessor list gets
`dom(i) = {i}` from `computeDominators` and the sentinel `-1` from
`computeImmediateDominators` (on every graph, valid or not); and on the
diamond graph extended with node 5 without predecessors, `dom(5) = {5}`,
`idom(5) = -1`, the frontier map has no set for 5 and no set in it contains 5. -/
theorem C6_node_without_predecessors :
    (∀ (cfg : Graph) (entry : Node) (i : Nat), ValidGraph cfg entry → i < cfg.length →
      (i : Int) ≠ entry → cfg.at i = [] →
      ∃ dom idom,
        (∀ fuel, computeDominators (fuel + 3) cfg entry = some dom ∧
          computeImmediateDominators (fuel + 3) cfg entry = some idom) ∧
        dom (i : Int) = some [(i : Int)] ∧ idom (i : Int) = some (-1)) ∧
    (∃ dom idom df,
      (∀ fuel, computeDominators (fuel + 3) diamond5 0 = some dom ∧
        computeImmediateDominators (fuel + 3) diamond5 0 = some idom ∧
        frontierOf (fuel + 3) diamond5 0 = some (Outcome.ok df)) ∧
      dom 5 = some [5] ∧ idom 5 = some (-1) ∧ df 5 = none ∧
      ∀ k s, df k = some s → (5 : Node) ∉ s) := by
  have general : ∀ (cfg : Graph) (entry : Node) (i : Nat), i < cfg.length →
      (i : Int) ≠ entry → cfg.at i = [] →
      ∃ dom idom,
        (∀ fuel, computeDominators (fuel + 3) cfg entry = some dom ∧
          computeImmediateDominators (fuel + 3) cfg entry = some idom) ∧
        dom (i : Int) = some [(i : Int)] ∧ idom (i : Int) = some (-1) := by
    intro cfg entry i hlt hne hp
    obtain ⟨r, hF, _, h, _⟩ := computeDominators_run cfg entry
    have hs : SelfOnly cfg i := by
      intro p hpm
      rw [hp] at hpm
      simp at hpm
    have hval : lookupSet r (i : Int) = [(i : Int)] := hF.2.2.1 i hlt hne hs
    refine ⟨r, extractIdom cfg.length entry r, ?_, ?_, ?_⟩
    · intro fuel
      refine ⟨h fuel, ?_⟩
      unfold computeImmediateDominators
      rw [h fuel]
      rfl
    · have hk := lookupSet_of_isSome (computeDominators_keys (h 0) i hlt)
      rw [hk, hval]
    · rw [extractIdom_apply]
      have hc : 0 ≤ (i : Int) ∧ (i : Int) < (cfg.length : Int) ∧ (i : Int) ≠ entry :=
        ⟨by omega, by omega, hne⟩
      rw [if_pos hc, hval]
      simp [selectIdom]
  refine ⟨fun cfg entry i _ hlt hne hp => general cfg entry i hlt hne hp, ?_⟩
  obtain ⟨dom, idom, hrun, hdom, hidom⟩ := general diamond5 0 5 (by decide) (by decide) rfl
  have h3 : ∃ df, frontierOf 3 diamond5 0 = some (Outcome.ok df) ∧ df 5 = none :=
    ⟨_, rfl, by decide⟩
  obtain ⟨df, hdf, h5⟩ := h3
  refine ⟨dom, idom, df, fun fuel => ⟨(hrun fuel).1, (hrun fuel).2, frontierOf_more hdf fuel⟩,
    hdom, hidom, h5, ?_⟩
  intro k s hk hmem
  obtain ⟨i, hi, hlen⟩ := frontierOf_members hdf k s hk 5 hmem
  have hi4 : (i : Int) = 5 := hi.symm
  have hi5 : i = 5 := by exact_mod_cast hi4
  subst hi5
  revert hlen
  decide

/-- Witness of C6: node 5 of the extended diamond graph with entry 0. -/
theorem C6_node_without_predecessors_witness :
    ∃ dom idom,
      (∀ fuel, computeDominators (fuel + 3) diamond5 0 = some dom ∧
        computeImmediateDominators (fuel + 3) diamond5 0 = some idom) ∧
      dom ((5 : Nat) : Int) = some [((5 : Nat) : Int)] ∧ idom ((5 : Nat) : Int) = some (-1) :=
  C6_node_without_predecessors.1 diamond5 0 5 (by decide) (by decide) (by decide) rfl

/-- C7 (as stated it fails): with entry 99 on the five-node diamond graph, and
with the out-of-range predecessor 7 on a two-node graph, `computeDominators`
raises no error and returns a dominator map. -/
theorem C7_out_of_range_input_counterexample :
    (∃ dom, computeDominators 3 diamond 99 = some dom ∧
      [dom 0, dom 1, dom 2, dom 3, dom 4] = [some [0], some [], some [], some [], some []]) ∧
    (∃ dom, computeDominators 3 [[], [7]] 0 = some dom ∧
      [dom 0, dom 1, dom 7] = [some [0], some [], some []]) :=
  ⟨⟨_, rfl, by decide⟩, ⟨_, rfl, by decide⟩⟩

/-- C7 (amended): when the entry or some predecessor id is outside `[0, n)`,
`computeDominators` still runs its passes and returns a dominator map, which
holds a set for every node of the graph; no error is raised. -/
theorem C7_out_of_range_input_returns (cfg : Graph) (entry : Node)
    (_hbad : entry < 0 ∨ (cfg.length : Int) ≤ entry ∨
      ∃ preds ∈ cfg, ∃ p ∈ preds, p < 0 ∨ (cfg.length : Int) ≤ p) :
    ∃ dom, (∀ fuel, computeDominators (fuel + 3) cfg entry = some dom) ∧
      ∀ i : Nat, i < cfg.length → (dom (i : Int)).isSome := by
  obtain ⟨r, _, _, h, _⟩ := computeDominators_run cfg entry
  exact ⟨r, h, computeDominators_keys (h 0)⟩

/-- Witness of C7 (amended): entry 99 on the diamond graph. -/
theorem C7_out_of_range_input_returns_witness :
    ((99 : Int) < 0 ∨ (diamond.length : Int) ≤ 99 ∨
      ∃ preds ∈ diamond, ∃ p ∈ preds, p < 0 ∨ (diamond.length : Int) ≤ p) ∧
    ∃ dom, (∀ fuel, computeDominators (fuel + 3) diamond 99 = some dom) ∧
      ∀ i : Nat, i < diamond.length → (dom (i : Int)).isSome :=
  ⟨Or.inr (Or.inl (by decide)),
    C7_out_of_range_input_returns diamond 99 (Or.inr (Or.inl (by decide)))⟩

/-- C8: for every graph and entry (structurally valid or not) the
repeat-until-no-change loop of `computeDominators` terminates: within three
full passes a pass reports no change and the function returns the map that
pass left; more fuel gives the same map. -/
theorem C8_loop_terminates (cfg : Graph) (entry : Node) :
    ∃ dom, (∀ fuel, computeDominators (fuel + 3) cfg entry = some dom) ∧
      (∀ fuel d, computeDominators fuel cfg entry = some d → d = dom) ∧
      ∃ d, pass cfg entry d = (dom, false) := by
  obtain ⟨r, _, ⟨d, _, hd⟩, h, hu⟩ := computeDominators_run cfg entry
  exact ⟨r, h, hu, d, hd⟩

/-- C9: the map `computeDominators` returns is a fixed point of one pass: for
every non-entry node `i` the set `{i} ∩ ⋂ dom(p)` over the predecessors `p`
of `i`, as lines 35-42 compute it, is `dom(i)`, and one more full pass from the
returned map gives the same map back with `changed = false`. -/
theorem C9_result_is_fixed_point (cfg : Graph) (entry : Node) :
    ∃ dom, (∀ fuel, computeDominators (fuel + 3) cfg entry = some dom) ∧
      (∀ fuel d, computeDominators fuel cfg entry = some d → d = dom) ∧
      (∀ i : Nat, i < cfg.length → (i : Int) ≠ entry →
        dom (i : Int) = some (intersectPreds (cfg.at i) [(i : Int)] dom).1 ∧
        ∀ x, x ∈ lookupSet dom (i : Int) ↔
          (x = (i : Int) ∧ ∀ p ∈ cfg.at i, x ∈ lookupSet dom p)) ∧
      pass cfg entry dom = (dom, false) := by
  obtain ⟨r, hF, hL, h, hu⟩ := computeDominators_run cfg entry
  refine ⟨r, h, hu, ?_, pass_idem hL⟩
  intro i hlt hne
  have hfix := final_newDomOf hF hlt hne
  constructor
  · rw [intersectPreds_fst hF.1, hfix]
    exact lookupSet_of_isSome (computeDominators_keys (h 0) i hlt)
  · intro x
    rw [← hfix]
    exact mem_newDomOf _ _ _ _

/-- C10 (the code fails it): on the diamond graph, which is structurally
valid, node 4 is in the frontier set of node 2, but no predecessor `p` of
node 4 has node 2 in the set `computeDominators` returns for `p`. -/
theorem C10_diamond_frontier_without_dominated_pred :
    ValidGraph diamond 0 ∧
    ∃ dom df,
      (∀ fuel, computeDominators (fuel + 3) diamond 0 = some dom ∧
        frontierOf (fuel + 3) diamond 0 = some (Outcome.ok df)) ∧
      (4 : Node) ∈ lookupSet df 2 ∧ ∀ p ∈ diamond.at 4, (2 : Node) ∉ lookupSet dom p := by
  refine ⟨by decide, ?_⟩
  obtain ⟨r, _, _, h, _⟩ := computeDominators_run diamond 0
  have h3 : computeDominators 3 diamond 0 = some r := h 0
  have h4 : (computeDominators 3 diamond 0).map
      (fun d => decide (∀ p ∈ diamond.at 4, (2 : Node) ∉ lookupSet d p)) = some true := by
    decide
  rw [h3] at h4
  have h5 : ∀ p ∈ diamond.at 4, (2 : Node) ∉ lookupSet r p := by
    simpa using Option.some.inj h4
  have h6 : ∃ df, frontierOf 3 diamond 0 = some (Outcome.ok df) ∧
      decide ((4 : Node) ∈ lookupSet df 2) = true := ⟨_, rfl, by decide⟩
  obtain ⟨df, hdf, hmem⟩ := h6
  exact ⟨r, df, fun fuel => ⟨h fuel, frontierOf_more hdf fuel⟩, by simpa using hmem, h5⟩

/-- C18: for every graph and entry, `computeImmediateDominators` returns a map
whose keys are exactly the non-entry nodes in `[0, n)` and whose value is the
sentinel `-1` for each of them; every non-entry set of the converged dominator
map is empty or the singleton of its node. -/
theorem C18_idom_all_none (cfg : Graph) (entry : Node) :
    ∃ dom idom,
      (∀ fuel, computeDominators (fuel + 3) cfg entry = some dom ∧
        computeImmediateDominators (fuel + 3) cfg entry = some idom) ∧
      (∀ fuel d, computeImmediateDominators fuel cfg entry = some d → d = idom) ∧
      (∀ k : Int, idom k =
        if 0 ≤ k ∧ k < (cfg.length : Int) ∧ k ≠ entry then some (-1) else none) ∧
      (∀ i : Nat, i < cfg.length → (i : Int) ≠ entry →
        lookupSet dom (i : Int) = [] ∨ lookupSet dom (i : Int) = [(i : Int)]) := by
  obtain ⟨r, hF, _, h, hu⟩ := computeDominators_run cfg entry
  refine ⟨r, extractIdom cfg.length entry r, ?_, ?_, ?_, fun i _ _ => hF.2.1 (i : Int)⟩
  · intro fuel
    refine ⟨h fuel, ?_⟩
    unfold computeImmediateDominators
    rw [h fuel]
    rfl
  · intro fuel d hd
    unfold computeImmediateDominators at hd
    cases hc : computeDominators fuel cfg entry with
    | none => rw [hc] at hd; simp at hd
    | some r2 =>
      rw [hc] at hd
      rw [hu fuel r2 hc] at hd
      exact (Option.some.inj hd).symm
  · intro k
    rw [extractIdom_apply]
    by_cases hc : 0 ≤ k ∧ k < (cfg.length : Int) ∧ k ≠ entry
    · rw [if_pos hc, if_pos hc, selectIdom_of_small r k (hF.2.1 k)]
    · rw [if_neg hc, if_neg hc]

/-- C14: the selection step of `computeImmediateDominators`, for any dominator
map `dom` (the set of `i` being a `std::set`, that is ascending) and any
non-entry node `i` with `S = dom(i) \ {i}`: it records the smallest-id `d` in
`S` such that no other `d'` in `S` has `d ∈ dom(d')`, and records `-1` when no
element of `S` satisfies this, in particular when `S` is empty. -/
theorem C14_selection_step (dom : DomMap) (entry : Node) (n i : Nat) (hlt : i < n)
    (hne : (i : Int) ≠ entry) (hs : (lookupSet dom (i : Int)).Pairwise (· < ·)) :
    ∃ d, extractIdom n entry dom (i : Int) = some d ∧
      ((StrictDom dom i d ∧ ClosestFor dom i d ∧
          ∀ d', StrictDom dom i d' → ClosestFor dom i d' → d ≤ d') ∨
        (d = -1 ∧ ∀ d', StrictDom dom i d' → ¬ ClosestFor dom i d')) ∧
      ((∀ x, ¬ StrictDom dom i x) → d = -1) := by
  have hes : ((lookupSet dom (i : Int)).erase (i : Int)).Pairwise (· < ·) :=
    hs.sublist (List.erase_sublist _ _)
  have hc : 0 ≤ (i : Int) ∧ (i : Int) < (n : Int) ∧ (i : Int) ≠ entry :=
    ⟨by omega, by omega, hne⟩
  refine ⟨selectIdom dom ((lookupSet dom (i : Int)).erase (i : Int)), ?_, ?_, ?_⟩
  · rw [extractIdom_apply, if_pos hc]
  · unfold selectIdom
    cases hf : ((lookupSet dom (i : Int)).erase (i : Int)).find?
        (isClosest dom ((lookupSet dom (i : Int)).erase (i : Int))) with
    | none =>
      right
      refine ⟨rfl, ?_⟩
      intro d' hd' hcl
      rw [List.find?_eq_none] at hf
      exact hf d' ((mem_erase_strictDom hs d').mpr hd') ((isClosest_iff hs d').mpr hcl)
    | some d =>
      left
      obtain ⟨h1, h2, h3⟩ := find_first_min _ _ hes d hf
      refine ⟨(mem_erase_strictDom hs d).mp h1, (isClosest_iff hs d).mp h2, ?_⟩
      intro d' hd' hcl
      exact h3 d' ((mem_erase_strictDom hs d').mpr hd') ((isClosest_iff hs d').mpr hcl)
  · intro hempty
    have hnil : (lookupSet dom (i : Int)).erase (i : Int) = [] := by
      rw [List.eq_nil_iff_forall_not_mem]
      intro x hx
      exact hempty x ((mem_erase_strictDom hs x).mp hx)
    rw [hnil]
    rfl

/-- Witness of C14: node 4 of a five-node graph with entry 0 on the sample map. -/
theorem C14_selection_step_witness :
    4 < 5 ∧ ((4 : Nat) : Int) ≠ 0 ∧
    (lookupSet sampleDom ((4 : Nat) : Int)).Pairwise (· < ·) ∧
    ∃ d, extractIdom 5 0 sampleDom ((4 : Nat) : Int) = some d ∧
      ((StrictDom sampleDom (4 : Nat) d ∧ ClosestFor sampleDom (4 : Nat) d ∧
          ∀ d', StrictDom sampleDom (4 : Nat) d' → ClosestFor sampleDom (4 : Nat) d' → d ≤ d') ∨
        (d = -1 ∧ ∀ d', StrictDom sampleDom (4 : Nat) d' → ¬ ClosestFor sampleDom (4 : Nat) d')) ∧
      ((∀ x, ¬ StrictDom sampleDom (4 : Nat) x) → d = -1) :=
  ⟨by decide, by decide, by decide,
    C14_selection_step sampleDom 0 5 4 (by decide) (by decide) (by decide)⟩

/-- C11 (the code fails it): the three-node graph `pred(0)=[]`, `pred(1)=[0]`,
`pred(2)=[0,1]` with entry 0 is structurally valid and all its nodes are
reachable from the entry, yet `computeDominanceFrontier` on the map returned by
`computeImmediateDominators` ends in `std::out_of_range`: the walk for node 2
from its predecessor 0 looks up the entry, which is no key of the map. -/
theorem C11_merge_at_entry_lookup_fails :
    ValidGraph mergeAtEntry 0 ∧
    (∀ i : Nat, i < mergeAtEntry.length → Reachable mergeAtEntry 0 (i : Int)) ∧
    ∀ fuel, frontierOf (fuel + 3) mergeAtEntry 0 = some Outcome.outOfRange := by
  refine ⟨by decide, ?_, ?_⟩
  · intro i hi
    have h3 : i < 3 := hi
    interval_cases i
    · exact ⟨[0], rfl, rfl⟩
    · exact ⟨[0, 1], rfl, ⟨by decide, by decide⟩, rfl, rfl⟩
    · exact ⟨[0, 2], rfl, ⟨by decide, by decide⟩, rfl, rfl⟩
  · intro fuel
    have h3 : frontierOf 3 mergeAtEntry 0 = some Outcome.outOfRange := rfl
    exact frontierOf_fuel h3 (by simp) fuel

/-- C12 (as stated it fails): on the diamond graph with the map that holds
`-1` for the nodes 1..4, node 4 has two predecessors and its predecessor 2 has
immediate dominator `-1`, yet `computeDominanceFrontier` returns a frontier
map, with `frontier(2) = {4}`. -/
theorem C12_none_predecessor_counterexample :
    2 ≤ (diamond.at 4).length ∧ (2 : Node) ∈ diamond.at 4 ∧ noneIdom 5 0 2 = some (-1) ∧
    ∃ df, computeDominanceFrontier 3 diamond (noneIdom 5 0) = Outcome.ok df ∧
      df 2 = some [4] :=
  ⟨by decide, by decide, by decide, _, rfl, by decide⟩

/-- C12 (amended): the code has no `UnreachablePredecessor` report.  The walk
for `node` from a predecessor `p` with `idom(p) = -1` and `p ≠ idom(node)`
puts `node` into `frontier(p)` and moves to `-1`; it then ends normally when
`idom(node)` is `-1` too, throws `std::out_of_range` when `idom(node)` is
another value and `-1` is no key of the map, and throws at its first test when
`node` is no key of the map. -/
theorem C12_none_predecessor_walk (idom : IdomMap) (node p : Node) (df : DomMap) (fuel : Nat)
    (hp : idom p = some (-1)) (hne : idom node ≠ some p) :
    (idom node = some (-1) →
      walk idom node (fuel + 2) p df =
        Outcome.ok (assign (index df p).2 p (setInsert node (index df p).1))) ∧
    (∀ stop, idom node = some stop → stop ≠ -1 → idom (-1) = none →
      walk idom node (fuel + 2) p df = Outcome.outOfRange) ∧
    (idom node = none → walk idom node (fuel + 2) p df = Outcome.outOfRange) := by
  refine ⟨?_, ?_, ?_⟩
  · intro hn
    refine walk_one_step idom node p (-1) df fuel hn hp ?_
    intro e
    exact hne (by rw [hn, e])
  · intro stop hn hs hm
    refine walk_past_stop idom node p (-1) stop df fuel hn hp ?_ (fun e => hs e.symm) hm
    intro e
    exact hne (by rw [hn, e])
  · intro hn
    exact walk_node_missing idom node p df (fuel + 1) hn

/-- Witness of C12 (amended): node 4 of the diamond graph and its predecessor 2. -/
theorem C12_none_predecessor_walk_witness :
    noneIdom 5 0 2 = some (-1) ∧ noneIdom 5 0 4 ≠ some 2 ∧
    (noneIdom 5 0 4 = some (-1) →
      walk (noneIdom 5 0) 4 (0 + 2) 2 emptyMap =
        Outcome.ok (assign (index emptyMap 2).2 2 (setInsert 4 (index emptyMap 2).1))) ∧
    (∀ stop, noneIdom 5 0 4 = some stop → stop ≠ -1 → noneIdom 5 0 (-1) = none →
      walk (noneIdom 5 0) 4 (0 + 2) 2 emptyMap = Outcome.outOfRange) ∧
    (noneIdom 5 0 4 = none → walk (noneIdom 5 0) 4 (0 + 2) 2 emptyMap = Outcome.outOfRange) :=
  ⟨by decide, by decide,
    C12_none_predecessor_walk (noneIdom 5 0) 4 2 emptyMap 0 (by decide) (by decide)⟩

/-- C15: for every graph and idom map on which `computeDominanceFrontier`
returns normally, `x ∈ frontier(r)` holds exactly when `x` is a node with two or
more predecessors and, for some predecessor `p` of `x`, `r` occurs in the
sequence `p, idom(p), idom(idom(p)), ...` strictly before the first occurrence
of `idom(x)`; so no node with fewer than two predecessors is in a frontier set. -/
theorem C15_frontier_membership (fuel : Nat) (cfg : Graph) (idom : IdomMap) (df : DomMap)
    (hrun : computeDominanceFrontier fuel cfg idom = Outcome.ok df) :
    (∀ r x : Node, x ∈ lookupSet df r ↔
      ∃ i : Nat, i < cfg.length ∧ x = (i : Int) ∧ 2 ≤ (cfg.at i).length ∧
        ∃ p ∈ cfg.at i, OnWalk idom (i : Int) p r) ∧
    (∀ r x : Node, x ∈ lookupSet df r →
      ∃ i : Nat, x = (i : Int) ∧ 2 ≤ (cfg.at i).length) := by
  refine ⟨fun r x => computeDominanceFrontier_mem fuel cfg idom hrun r x, ?_⟩
  intro r x hx
  obtain ⟨i, _, hxi, hlen, _⟩ := (computeDominanceFrontier_mem fuel cfg idom hrun r x).mp hx
  exact ⟨i, hxi, hlen⟩

/-- Witness of C15: the diamond graph with the map that holds `-1` for the nodes 1..4. -/
theorem C15_frontier_membership_witness :
    ∃ df, computeDominanceFrontier 3 diamond (noneIdom 5 0) = Outcome.ok df ∧
      (∀ r x : Node, x ∈ lookupSet df r ↔
        ∃ i : Nat, i < diamond.length ∧ x = (i : Int) ∧ 2 ≤ (diamond.at i).length ∧
          ∃ p ∈ diamond.at i, OnWalk (noneIdom 5 0) (i : Int) p r) ∧
      (∀ r x : Node, x ∈ lookupSet df r →
        ∃ i : Nat, x = (i : Int) ∧ 2 ≤ (diamond.at i).length) :=
  ⟨_, rfl, C15_frontier_membership 3 diamond (noneIdom 5 0) _ rfl⟩

/-- C20: for every structurally valid graph and entry, when no node with two
or more predecessors is the entry or has the entry among its predecessors,
`computeDominanceFrontier` run on the output of `computeImmediateDominators`
returns the map with `frontier(r) = { m : m has two or more predecessors and
r ∈ preds(m) }` for every `r`; when some node with two or more predecessors is
the entry or has the entry as a predecessor, the run ends in
`std::out_of_range` and no frontier is returned. -/
theorem C20_frontier_of_pipeline (cfg : Graph) (entry : Node) (hv : ValidGraph cfg entry) :
    ((∀ i : Nat, i < cfg.length → 2 ≤ (cfg.at i).length →
        (i : Int) ≠ entry ∧ entry ∉ cfg.at i) →
      ∃ df, (∀ fuel, frontierOf (fuel + 3) cfg entry = some (Outcome.ok df)) ∧
        ∀ r m : Node, m ∈ lookupSet df r ↔
          ∃ i : Nat, i < cfg.length ∧ m = (i : Int) ∧ 2 ≤ (cfg.at i).length ∧ r ∈ cfg.at i) ∧
    ((∃ i : Nat, i < cfg.length ∧ 2 ≤ (cfg.at i).length ∧
        ((i : Int) = entry ∨ entry ∈ cfg.at i)) →
      ∀ fuel, frontierOf (fuel + 3) cfg entry = some Outcome.outOfRange) := by
  have hloop := fun fuel => frontierLoop_noneIdom cfg entry fuel (List.range cfg.length)
    (mem_range_lt cfg) (fun i _ p hp => validGraph_preds hv i p hp)
    (fun i _ hlen => validGraph_merge_ne_entry hv i hlen) emptyMap
  constructor
  · intro hgood
    have hgood2 : ∀ i ∈ List.range cfg.length, 2 ≤ (cfg.at i).length → entry ∉ cfg.at i :=
      fun i hi hlen => (hgood i (List.mem_range.mp hi) hlen).2
    obtain ⟨df, hdf⟩ := (hloop 0).1 hgood2
    have hrun : computeDominanceFrontier 2 cfg (noneIdom cfg.length entry) = Outcome.ok df :=
      hdf
    refine ⟨df, ?_, ?_⟩
    · intro fuel
      rw [frontierOf_eq]
      have hm := frontierLoop_more 2 (fuel + 1) cfg (noneIdom cfg.length entry)
        (List.range cfg.length) emptyMap (by rw [hdf]; simp)
      unfold computeDominanceFrontier
      rw [show fuel + 3 = 2 + (fuel + 1) by omega, hm, hdf]
    · intro r m
      rw [computeDominanceFrontier_mem 2 cfg _ hrun]
      constructor
      · rintro ⟨i, hi, hm, hlen, p, hp, hw⟩
        have hne := validGraph_merge_ne_entry hv i hlen
        have hpr := validGraph_preds hv i p hp
        have hpe : p ≠ entry := fun e => (hgood i hi hlen).2 (e ▸ hp)
        have hp1 : p ≠ -1 := by
          intro e
          have h2 := hpr.1
          rw [e] at h2
          exact absurd h2 (by decide)
        have hrp := (onWalk_noneIdom
          (noneIdom_of_node (by omega) (by omega) hne)
          (noneIdom_of_node hpr.1 hpr.2 hpe) hp1 r).mp hw
        exact ⟨i, hi, hm, hlen, hrp ▸ hp⟩
      · rintro ⟨i, hi, hm, hlen, hr⟩
        have hne := validGraph_merge_ne_entry hv i hlen
        have hpr := validGraph_preds hv i r hr
        have hre : r ≠ entry := fun e => (hgood i hi hlen).2 (e ▸ hr)
        have hr1 : r ≠ -1 := by
          intro e
          have h2 := hpr.1
          rw [e] at h2
          exact absurd h2 (by decide)
        exact ⟨i, hi, hm, hlen, r, hr, (onWalk_noneIdom
          (noneIdom_of_node (by omega) (by omega) hne)
          (noneIdom_of_node hpr.1 hpr.2 hre) hr1 r).mpr rfl⟩
  · rintro ⟨i, hi, hlen, hbad⟩ fuel
    rw [frontierOf_eq]
    have hie : entry ∈ cfg.at i := by
      rcases hbad with e | e
      · exact absurd e (validGraph_merge_ne_entry hv i hlen)
      · exact e
    exact congrArg some ((hloop (fuel + 1)).2 ⟨i, List.mem_range.mpr hi, hlen, hie⟩)

/-- Witness of C20 on the diamond graph with entry 0. -/
theorem C20_frontier_of_pipeline_witness :
    ValidGraph diamond 0 ∧
    ((∀ i : Nat, i < diamond.length → 2 ≤ (diamond.at i).length →
        (i : Int) ≠ 0 ∧ (0 : Node) ∉ diamond.at i) →
      ∃ df, (∀ fuel, frontierOf (fuel + 3) diamond 0 = some (Outcome.ok df)) ∧
        ∀ r m : Node, m ∈ lookupSet df r ↔
          ∃ i : Nat, i < diamond.length ∧ m = (i : Int) ∧ 2 ≤ (diamond.at i).length ∧
            r ∈ diamond.at i) ∧
    ((∃ i : Nat, i < diamond.length ∧ 2 ≤ (diamond.at i).length ∧
        ((i : Int) = 0 ∨ (0 : Node) ∈ diamond.at i)) →
      ∀ fuel, frontierOf (fuel + 3) diamond 0 = some Outcome.outOfRange) :=
  ⟨by decide, C20_frontier_of_pipeline diamond 0 (by decide)⟩

/-- C16 (as stated it fails): on a graph of `n = 3` nodes, with an acyclic map
that has keys outside the graph, the walk for node 2 from its predecessor 0
runs through 0, 5, 6 and 7 before it reaches `idom(2) = 9`: four steps, none of
the first `n + 1` elements of the sequence is `idom(2)` or a failed lookup.  In
the model the walk and the builder run out of fuel with `n + 1 = 4` loop tests
and complete with 5. -/
theorem C16_long_chain_counterexample :
    twoRoots.length = 3 ∧ 2 ≤ (twoRoots.at 2).length ∧ (0 : Node) ∈ twoRoots.at 2 ∧
    Acyclic longIdom ∧ longIdom 2 = some 9 ∧
    (∀ j, j ≤ 3 → chainAt longIdom j 0 ≠ none ∧ chainAt longIdom j 0 ≠ some 9) ∧
    walk longIdom 2 (3 + 1) 0 emptyMap = Outcome.timeout ∧
    (∃ df, walk longIdom 2 (4 + 1) 0 emptyMap = Outcome.ok df) ∧
    computeDominanceFrontier (3 + 1) twoRoots longIdom = Outcome.timeout ∧
    (∃ df, computeDominanceFrontier (4 + 1) twoRoots longIdom = Outcome.ok df) :=
  ⟨rfl, by decide, by decide, acyclic_longIdom, rfl, by decide, rfl, ⟨_, rfl⟩, rfl, ⟨_, rfl⟩⟩

/-- C16 (amended): for every graph of `n` nodes and every idom map whose keys
are node ids in `[0, n)` and whose relation `node -> idom(node)` has no cycle,
every predecessor walk ends after at most `n` steps: among the first `n + 1`
elements of the sequence `p, idom(p), ...` one is `idom(node)` or a failed
lookup.  So `n + 1` loop tests are enough for every walk and the builder
terminates: it returns a map or ends in `std::out_of_range`, and more fuel does
not change the outcome. -/
theorem C16_walk_bound (cfg : Graph) (idom : IdomMap)
    (hkeys : ∀ k : Int, (idom k).isSome → 0 ≤ k ∧ k < (cfg.length : Int))
    (hacyc : Acyclic idom) :
    (∀ node p stop, idom node = some stop →
      ∃ j, j ≤ cfg.length ∧ (chainAt idom j p = none ∨ chainAt idom j p = some stop)) ∧
    (∀ node p df, walk idom node (cfg.length + 1) p df ≠ Outcome.timeout) ∧
    computeDominanceFrontier (cfg.length + 1) cfg idom ≠ Outcome.timeout ∧
    (∀ fuel, computeDominanceFrontier (cfg.length + 1 + fuel) cfg idom =
      computeDominanceFrontier (cfg.length + 1) cfg idom) := by
  have hw := walk_no_timeout cfg.length idom hkeys hacyc
  have hl := frontierLoop_no_timeout (cfg.length + 1) cfg idom hw (List.range cfg.length)
    emptyMap
  exact ⟨fun node p stop hn => chain_bound cfg.length idom hkeys hacyc node p stop hn,
    hw, hl, fun fuel => frontierLoop_more (cfg.length + 1) fuel cfg idom _ emptyMap hl⟩

/-- Witness of C16 (amended): the diamond graph with the map that holds `-1`
for its non-entry nodes. -/
theorem C16_walk_bound_witness :
    (∀ k : Int, (noneIdom diamond.length 0 k).isSome → 0 ≤ k ∧ k < (diamond.length : Int)) ∧
    Acyclic (noneIdom diamond.length 0) ∧
    (∀ node p stop, noneIdom diamond.length 0 node = some stop →
      ∃ j, j ≤ diamond.length ∧ (chainAt (noneIdom diamond.length 0) j p = none ∨
        chainAt (noneIdom diamond.length 0) j p = some stop)) ∧
    (∀ node p df,
      walk (noneIdom diamond.length 0) node (diamond.length + 1) p df ≠ Outcome.timeout) ∧
    computeDominanceFrontier (diamond.length + 1) diamond (noneIdom diamond.length 0) ≠
      Outcome.timeout ∧
    (∀ fuel, computeDominanceFrontier (diamond.length + 1 + fuel) diamond
        (noneIdom diamond.length 0) =
      computeDominanceFrontier (diamond.length + 1) diamond (noneIdom diamond.length 0)) :=
  ⟨noneIdom_keys diamond.length 0, acyclic_noneIdom diamond.length 0,
    C16_walk_bound diamond (noneIdom diamond.length 0) (noneIdom_keys diamond.length 0)
      (acyclic_noneIdom diamond.length 0)⟩

/-- C13: for every graph and entry, if the passes of the solver visit the
nodes in any fixed permutation `order` of the node ids instead of ascending
order, the solver still returns within three passes, and the map it returns
is the map `computeDominators` returns. -/
theorem C13_order_independence (cfg : Graph) (entry : Node) (order : List Nat)
    (hperm : order.Perm (List.range cfg.length)) :
    ∃ dom, (∀ fuel, computeDominators (fuel + 3) cfg entry = some dom) ∧
      (∀ fuel, computeDominatorsInOrder order (fuel + 3) cfg entry = some dom) ∧
      (∀ fuel d, computeDominatorsInOrder order fuel cfg entry = some d → d = dom) := by
  obtain ⟨r, _, _, h, _⟩ := computeDominators_run cfg entry
  obtain ⟨r1, hr1, hc1⟩ := computeDominatorsInOrder_converged cfg entry order hperm
  obtain ⟨r2, hr2, hc2⟩ := computeDominatorsInOrder_converged cfg entry
    (List.range cfg.length) (List.Perm.refl _)
  have h3 : computeDominators 3 cfg entry = some r := h 0
  rw [computeDominators_eq_inOrder, hr2] at h3
  have e2 : r2 = r := Option.some.inj h3
  have e1 : r1 = r := (converged_unique hc1 hc2).trans e2
  rw [e1] at hr1
  refine ⟨r, h, ?_, ?_⟩
  · intro fuel
    have := iterateInOrder_more order 3 fuel hr1
    rw [Nat.add_comm] at this
    exact this
  · intro fuel d hd
    have a1 := iterateInOrder_more order fuel 3 hd
    have a2 := iterateInOrder_more order 3 fuel hr1
    rw [Nat.add_comm] at a2
    rw [a1] at a2
    exact Option.some.inj a2

/-- Witness of C13: the diamond graph with entry 0, visited in descending order. -/
theorem C13_order_independence_witness :
    [4, 3, 2, 1, 0].Perm (List.range diamond.length) ∧
    ∃ dom, (∀ fuel, computeDominators (fuel + 3) diamond 0 = some dom) ∧
      (∀ fuel, computeDominatorsInOrder [4, 3, 2, 1, 0] (fuel + 3) diamond 0 = some dom) ∧
      (∀ fuel d, computeDominatorsInOrder [4, 3, 2, 1, 0] fuel diamond 0 = some d → d = dom) :=
  ⟨by decide, C13_order_independence diamond 0 [4, 3, 2, 1, 0] (by decide)⟩

end Dominator
